import Mathlib

/-
Shallow embedding of the trie library (src/trie.go, the generic `Trie[T]`
variant: `node[T]`, `Trie[T]`, `Add`, `Find`, `HasKeysWithPrefix`, `Remove`,
`Keys`, `FuzzySearch`, `PrefixSearch`, `newChild`, `newEmptyChild`,
`removeChild`, `findNode`, `maskruneslice`, `collect`, `fuzzycollect`).

Conventions of the embedding:
- Go strings are Lean `String`s; `[]rune(key)` is `String.toList` (a Go rune
  is a Unicode code point, as is a Lean `Char`).
- `uint64` masks are `Nat`s whose set bits all lie below 64 (the Go shift
  `1 << uint64(r-'a')` yields 0 whenever the unsigned shift amount is ≥ 64,
  so no wrap-around can occur; `runeShift` reproduces the unsigned
  conversion of the int32 difference `r - 'a'`).
- The Go child map `map[rune]*node[T]` is keyed, at every assignment in the
  source, by the child's own `val` field (`n.children[node.val] = node`), so
  it is embedded as a list of child nodes searched by `val`
  (`Children`/`findChild`/`setChild`/`eraseChild`); Go map iteration order
  is unspecified, the list order is one determinization of it.
- The `parent` back-pointers and `node.depth` bookkeeping drive `Remove`'s
  upward walk; the walk is embedded as a bottom-up recursion along the
  descent path (`removeGo`), which visits exactly the nodes
  `nd.parent, nd.parent.parent, …` of the source and reproduces
  `removeChild`'s mask recomputation at every strict ancestor of the
  detachment node. The `depth` field itself is embedded faithfully and the
  detached child is selected by `rs[n.depth]` exactly as in the source.
- `sync.RWMutex` locking has no observable effect on the sequential
  semantics and is not modeled.
- The iterative explicit-stack traversals (`collect`, `fuzzycollect`) visit
  every node of the relevant subtrees exactly once, in an order determined
  by Go's unspecified map iteration; they are embedded as structural
  recursions producing the same keys, in one fixed such order.
-/

namespace DTrie

/-- The nul sentinel rune (the `nul = 0x0` constant of the source). -/
def nul : Char := Char.ofNat 0

/-- The unsigned 64-bit shift amount `uint64(r - 'a')` of the source:
the int32 subtraction `r - 'a'` converted to uint64 (two's complement). -/
def runeShift (r : Char) : Nat :=
  if 97 ≤ r.toNat then r.toNat - 97 else 2 ^ 64 - (97 - r.toNat)

/-- The single-rune bit `uint64(1) << uint64(r-'a')`: Go defines an unsigned
left shift by ≥ 64 bits to be 0. -/
def runeBit (r : Char) : Nat :=
  if runeShift r < 64 then 2 ^ runeShift r else 0

/-- `maskruneslice` of the source: the bitwise union of the bits of a rune
slice. -/
def maskruneslice (rs : List Char) : Nat :=
  rs.foldl (fun m r => m ||| runeBit r) 0

mutual

/-- The `node[T]` struct of the source (field for field; `parent` is
represented implicitly by the tree structure, see the header comment;
`meta`'s Go zero value for an unconstrained `T` is `none`). -/
inductive Node (T : Type) : Type where
  | mk (val : Char) (path : String) (term : Bool) (depth : Nat)
       (meta : Option T) (mask : Nat) (termCount : Nat) (children : Children T)

/-- The contents of the child map `map[rune]*node[T]`, keyed by each child's
`val` field. -/
inductive Children (T : Type) : Type where
  | nil
  | cons (n : Node T) (rest : Children T)

end

def Node.val {T : Type} : Node T → Char
  | .mk v _ _ _ _ _ _ _ => v

def Node.path {T : Type} : Node T → String
  | .mk _ p _ _ _ _ _ _ => p

def Node.term {T : Type} : Node T → Bool
  | .mk _ _ tm _ _ _ _ _ => tm

def Node.depth {T : Type} : Node T → Nat
  | .mk _ _ _ d _ _ _ _ => d

def Node.meta {T : Type} : Node T → Option T
  | .mk _ _ _ _ mt _ _ _ => mt

def Node.mask {T : Type} : Node T → Nat
  | .mk _ _ _ _ _ msk _ _ => msk

def Node.termCount {T : Type} : Node T → Nat
  | .mk _ _ _ _ _ _ tc _ => tc

def Node.children {T : Type} : Node T → Children T
  | .mk _ _ _ _ _ _ _ cs => cs

/-- Map lookup `n.children[r]` (children are keyed by their `val`). -/
def findChild {T : Type} : Children T → Char → Option (Node T)
  | .nil, _ => none
  | .cons n rest, r => if n.val = r then some n else findChild rest r

/-- Map assignment `n.children[c.val] = c`: replaces the entry with the same
key if present, otherwise adds one. -/
def setChild {T : Type} : Children T → Node T → Children T
  | .nil, c => .cons c .nil
  | .cons n rest, c => if n.val = c.val then .cons c rest else .cons n (setChild rest c)

/-- Map deletion `delete(n.children, r)`. -/
def eraseChild {T : Type} : Children T → Char → Children T
  | .nil, _ => .nil
  | .cons n rest, r => if n.val = r then rest else .cons n (eraseChild rest r)

/-- `len(n.children)`. -/
def childCount {T : Type} : Children T → Nat
  | .nil => 0
  | .cons _ rest => childCount rest + 1

/-- The union of the children's masks (the loop of `removeChild`'s mask
recomputation). -/
def maskUnion {T : Type} : Children T → Nat
  | .nil => 0
  | .cons n rest => n.mask ||| maskUnion rest

/-- Helper: replace the mask field. -/
def Node.withMask {T : Type} : Node T → Nat → Node T
  | .mk v p tm d mt _ tc cs, m => .mk v p tm d mt m tc cs

/-- Helper: replace the children field. -/
def Node.withChildren {T : Type} : Node T → Children T → Node T
  | .mk v p tm d mt msk tc _, cs => .mk v p tm d mt msk tc cs

/-- The `Trie[T]` struct (the lock is not modeled; `size` is a Go `int`,
embedded as `Int` since `Remove` may drive it negative). -/
structure Trie (T : Type) : Type where
  root : Node T
  size : Int

/-- The root made by `New[T]()` and by `Remove`'s root replacement:
`&node[T]{children: make(map[rune]*node[T])}` (all other fields zero). -/
def emptyRoot {T : Type} : Node T := .mk nul "" false 0 none 0 0 .nil

/-- `New[T]()`. -/
def Trie.New (T : Type) : Trie T := ⟨emptyRoot, 0⟩

/-- The descent loop of `Add` (after the root's own `mask`/`termCount`
update): at each visited node, the `i`-th iteration ORs
`maskruneslice(runes[i:])` into the child's mask (creating the child via
`newEmptyChild` when absent, which also ORs the bitmask into the parent) and
bumps its `termCount`; at the end `newChild(nul, key, 0, meta, true)`
installs the terminal sentinel (the accompanying `n.mask |= 0` is a no-op). -/
def addGo {T : Type} : Node T → List Char → String → T → Node T
  | .mk v p tm d mt msk tc cs, [], key, meta =>
      .mk v p tm d mt msk tc (setChild cs (.mk nul key true (d + 1) (some meta) 0 0 .nil))
  | .mk v p tm d mt msk tc cs, r :: rest, key, meta =>
      let bm := maskruneslice (r :: rest)
      match findChild cs r with
      | some (.mk cv cp ctm cd cmt cmk ctc ccs) =>
          .mk v p tm d mt msk tc
            (setChild cs (addGo (.mk cv cp ctm cd cmt (cmk ||| bm) (ctc + 1) ccs) rest key meta))
      | none =>
          .mk v p tm d mt (msk ||| bm) tc
            (setChild cs (addGo (.mk r "" false (d + 1) none bm 1 .nil) rest key meta))

/-- `Add(key, meta)`: `size++`, the root gets the whole key's bitmask and a
`termCount` bump, then the descent loop runs. -/
def Trie.Add {T : Type} (t : Trie T) (key : String) (meta : T) : Trie T :=
  let runes := key.toList
  let bitmask := maskruneslice runes
  match t.root with
  | .mk v p tm d mt msk tc cs =>
      { root := addGo (.mk v p tm d mt (msk ||| bitmask) (tc + 1) cs) runes key meta,
        size := t.size + 1 }

/-- `findNode` of the source (the `nil`-node guard is unrepresentable here;
the `nrunes` slicing is exactly `rest`). -/
def findNode {T : Type} : Node T → List Char → Option (Node T)
  | n, [] => some n
  | n, r :: rest =>
      match findChild n.children r with
      | none => none
      | some c => findNode c rest

/-- `Find(key)`: exact descent, then the nul sentinel child must exist and
be terminal; returns the terminal node (`none` embeds `(nil, false)`). -/
def Trie.Find {T : Type} (t : Trie T) (key : String) : Option (Node T) :=
  match findNode t.root key.toList with
  | none => none
  | some nd =>
      match findChild nd.children nul with
      | none => none
      | some c => if c.term then some c else none

/-- `HasKeysWithPrefix(key)`: whether the exact descent succeeds. -/
def Trie.HasKeysWithPrefix {T : Type} (t : Trie T) (key : String) : Bool :=
  (findNode t.root key.toList).isSome

/-- `collect(nd)` restricted to one child list: the iterative stack loop of
the source visits every subtree node once and emits `n.path` for each node
with `term` set; embedded as a structural recursion (see header). -/
def collectC {T : Type} : Children T → List String
  | .nil => []
  | .cons (.mk _ p tm _ _ _ _ cs) rest =>
      (if tm then [p] else []) ++ collectC cs ++ collectC rest

/-- `collect(nd)` of the source. -/
def collectN {T : Type} (n : Node T) : List String :=
  (if n.term then [n.path] else []) ++ collectC n.children

/-- `PrefixSearch(pre)`: descend to the node at `pre` and collect its
subtree (a failed descent returns the nil slice). -/
def Trie.PrefixSearch {T : Type} (t : Trie T) (pre : String) : List String :=
  match findNode t.root pre.toList with
  | none => []
  | some nd => collectN nd

/-- `Keys()`: empty when `size == 0`, else `PrefixSearch("")`. -/
def Trie.Keys {T : Type} (t : Trie T) : List String :=
  if t.size = 0 then [] else t.PrefixSearch ""

/-- The mask recomputation of `removeChild`, applied to one ancestor `nd`:
`nd.mask ^= nd.mask` (zeroing), then `nd.mask |= 1 << uint64(nd.val-'a')`,
then the OR of all current children's masks. -/
def recomputeMask {T : Type} (n : Node T) : Node T :=
  n.withMask (runeBit n.val ||| maskUnion n.children)

/-- The upward walk of `Remove` below the root, embedded bottom-up along
the descent path. `rs` is the full rune slice of the removed key; the second
argument is the suffix of `rs` below the current node. Result flag `true`
means the walk already ended at this node or deeper (`n.removeChild(rs[n.depth])`
ran at the first ancestor with more than one child, counted from the found
node's parent upward); every strict ancestor of that detachment node then
has its mask recomputed, exactly as `removeChild`'s parent-chain loop does.
Flag `false` means the walk passed this node (single child, not the root). -/
def removeGo {T : Type} (rs : List Char) : Node T → List Char → Node T × Bool
  | n, [] => (n, false)
  | n, r :: rest =>
      match findChild n.children r with
      | none => (n, false)
      | some c =>
          match removeGo rs c rest with
          | (c', true) => (recomputeMask (n.withChildren (setChild n.children c')), true)
          | (_, false) =>
              if 1 < childCount n.children then
                (n.withChildren (eraseChild n.children (rs.getD n.depth nul)), true)
              else (n, false)

/-- `Remove(key)`: exact descent with `findNode` (a nil result is a no-op),
`size--`, then the upward walk from the found node's parent: reaching the
root replaces it by a fresh empty node, and the first ancestor with more
than one child detaches `rs[n.depth]` and recomputes the masks of all its
strict ancestors. An empty key finds the root, whose parent is nil, so only
`size--` happens. -/
def Trie.Remove {T : Type} (t : Trie T) (key : String) : Trie T :=
  let rs := key.toList
  match findNode t.root rs with
  | none => t
  | some _ =>
      match rs with
      | [] => { t with size := t.size - 1 }
      | r :: rest =>
          match findChild t.root.children r with
          | none => { t with size := t.size - 1 }
          | some c =>
              match removeGo (r :: rest) c rest with
              | (c', true) =>
                  { root := recomputeMask (t.root.withChildren (setChild t.root.children c')),
                    size := t.size - 1 }
              | (_, false) => { root := emptyRoot, size := t.size - 1 }

mutual

/-- The body of `fuzzycollect`'s work-list loop for one entry
`(n, idx)` (`pat` is the pattern, called `partial` in the source): prune
when `n.mask` misses a bit of the remaining pattern's mask; advance the
index when `n.val` equals the current pattern rune and collect the whole
subtree if that completes the pattern; otherwise schedule every child with
the (possibly advanced) index. -/
def fuzzyGoN {T : Type} (pat : List Char) : Node T → Nat → List String
  | .mk v p tm d mt msk tc cs, idx =>
      let m := maskruneslice (pat.drop idx)
      if ¬ (msk &&& m = m) then []
      else if v = pat.getD idx nul then
        (if idx + 1 = pat.length then collectN (.mk v p tm d mt msk tc cs)
         else fuzzyGoC pat cs (idx + 1))
      else fuzzyGoC pat cs idx

/-- Work-list entries for all children of a node, with a common pattern
index (the `for _, c := range p.node.children` push of the source). -/
def fuzzyGoC {T : Type} (pat : List Char) : Children T → Nat → List String
  | .nil, _ => []
  | .cons n rest, idx => fuzzyGoN pat n idx ++ fuzzyGoC pat rest idx

end

/-- `fuzzycollect(nd, partial)` of the source: an empty pattern collects
everything; otherwise the work list is seeded with `(nd, 0)`. -/
def fuzzycollect {T : Type} (nd : Node T) (pat : List Char) : List String :=
  if pat.isEmpty then collectN nd else fuzzyGoN pat nd 0

/-- The comparator of `ByKeys` (`len(a[i]) < len(a[j])` on Go strings is a
byte-length comparison), as the non-strict total order that `sort.Sort`
establishes. -/
def byKeysLe (a b : String) : Prop := a.utf8ByteSize ≤ b.utf8ByteSize

instance : DecidableRel byKeysLe := fun _ _ => Nat.decLe _ _

instance : IsTotal String byKeysLe := ⟨fun _ _ => Nat.le_total _ _⟩

instance : IsTrans String byKeysLe := ⟨fun _ _ _ h h' => le_trans h h'⟩

/-- `FuzzySearch(pre)`: fuzzy-collect from the root, then
`sort.Sort(ByKeys(keys))`; `sort.Sort` is an arbitrary permutation making
the byte lengths nondecreasing, determinized here as an insertion sort. -/
def Trie.FuzzySearch {T : Type} (t : Trie T) (pre : String) : List String :=
  List.insertionSort byKeysLe (fuzzycollect t.root pre.toList)

/-- A client-visible mutating operation on the trie. -/
inductive Op (T : Type) : Type where
  | add (key : String) (meta : T)
  | remove (key : String)

/-- Apply one operation. -/
def applyOp {T : Type} (t : Trie T) : Op T → Trie T
  | .add key meta => t.Add key meta
  | .remove key => t.Remove key

/-- The trie reached from `New` by a sequence of `Add`/`Remove` calls. -/
def buildTrie (T : Type) (ops : List (Op T)) : Trie T :=
  ops.foldl applyOp (Trie.New T)

/-
Bitmask subset kit. Throughout, `a ||| b = b` expresses that every bit of
`a` is a bit of `b`.
-/

theorem msub_iff {a b : Nat} :
    a ||| b = b ↔ ∀ i, a.testBit i = true → b.testBit i = true := by
  constructor
  · intro h i hi
    have := congrArg (fun x => Nat.testBit x i) h
    simp only [Nat.testBit_or, hi, Bool.true_or] at this
    exact this.symm
  · intro h
    apply Nat.eq_of_testBit_eq
    intro i
    simp only [Nat.testBit_or]
    cases hx : a.testBit i with
    | false => simp
    | true => simp [h i hx]

theorem msub_refl (a : Nat) : a ||| a = a := Nat.or_self a

theorem msub_trans {a b c : Nat} (h1 : a ||| b = b) (h2 : b ||| c = c) :
    a ||| c = c := by
  rw [msub_iff] at h1 h2 ⊢
  exact fun i hi => h2 i (h1 i hi)

theorem msub_lor_left (a b : Nat) : a ||| (a ||| b) = a ||| b := by
  rw [msub_iff]
  intro i hi
  simp [Nat.testBit_or, hi]

theorem msub_lor_right (a b : Nat) : b ||| (a ||| b) = a ||| b := by
  rw [msub_iff]
  intro i hi
  simp [Nat.testBit_or, hi]

theorem msub_lub {a b c : Nat} (h1 : a ||| c = c) (h2 : b ||| c = c) :
    (a ||| b) ||| c = c := by
  rw [msub_iff] at h1 h2 ⊢
  intro i hi
  simp only [Nat.testBit_or, Bool.or_eq_true] at hi
  rcases hi with hi | hi
  · exact h1 i hi
  · exact h2 i hi

theorem msub_zero (a : Nat) : 0 ||| a = a := Nat.zero_or a

theorem msub_of_lor_left {a b c : Nat} (h : (a ||| b) ||| c = c) : a ||| c = c :=
  msub_trans (msub_lor_left a b) h

theorem msub_of_lor_right {a b c : Nat} (h : (a ||| b) ||| c = c) : b ||| c = c :=
  msub_trans (msub_lor_right a b) h

/-- The pruning test of the source, `mask & m == m`, is the subset test. -/
theorem land_eq_iff_msub {x m : Nat} : x &&& m = m ↔ m ||| x = x := by
  constructor
  · intro h
    rw [msub_iff]
    intro i hi
    have := congrArg (fun y => Nat.testBit y i) h
    simp only [Nat.testBit_and] at this
    cases hx : x.testBit i with
    | true => rfl
    | false => rw [hx, Bool.false_and] at this; rw [hi] at this; cases this
  · intro h
    apply Nat.eq_of_testBit_eq
    intro i
    rw [msub_iff] at h
    simp only [Nat.testBit_and]
    cases hm : m.testBit i with
    | false => simp
    | true => simp [h i hm]

theorem foldl_or_shift (rs : List Char) (a : Nat) :
    rs.foldl (fun m r => m ||| runeBit r) a = a ||| rs.foldl (fun m r => m ||| runeBit r) 0 := by
  induction rs generalizing a with
  | nil => simp [Nat.or_zero]
  | cons r rest ih =>
      rw [List.foldl_cons, List.foldl_cons, ih (a ||| runeBit r), ih (0 ||| runeBit r), msub_zero]
      apply Nat.eq_of_testBit_eq
      intro i
      simp only [Nat.testBit_or]
      cases a.testBit i <;> cases (runeBit r).testBit i <;> simp

theorem maskruneslice_cons (r : Char) (rs : List Char) :
    maskruneslice (r :: rs) = runeBit r ||| maskruneslice rs := by
  unfold maskruneslice
  rw [List.foldl_cons, foldl_or_shift rs (0 ||| runeBit r), msub_zero]

theorem maskruneslice_nil : maskruneslice [] = 0 := rfl

theorem maskruneslice_append (xs ys : List Char) :
    maskruneslice (xs ++ ys) = maskruneslice xs ||| maskruneslice ys := by
  induction xs with
  | nil => simp [maskruneslice_nil, msub_zero]
  | cons r rest ih =>
      rw [List.cons_append, maskruneslice_cons, ih, maskruneslice_cons, Nat.or_assoc]

theorem maskruneslice_sublist {xs ys : List Char} (h : List.Sublist xs ys) :
    maskruneslice xs ||| maskruneslice ys = maskruneslice ys := by
  induction h with
  | slnil => exact msub_zero 0
  | cons r _ ih =>
      rw [maskruneslice_cons]
      exact msub_trans ih (msub_lor_right _ _)
  | cons₂ r _ ih =>
      rw [maskruneslice_cons, maskruneslice_cons]
      refine msub_lub (msub_lor_left _ _) (msub_trans ih (msub_lor_right _ _))

/-
Structural invariants of reachable tries, as executable predicates.
-/

/-- Whether some child in the list has value `r`. -/
def valMemB {T : Type} (r : Char) : Children T → Bool
  | .nil => false
  | .cons n rest => n.val == r || valMemB r rest

/-- Whether some node of these subtrees is terminal. -/
def hasTermC {T : Type} : Children T → Bool
  | .nil => false
  | .cons (.mk _ _ ctm _ _ _ _ ccs) rest => ctm || hasTermC ccs || hasTermC rest

/-- Whether the subtree rooted at a node holds a terminal node. -/
def hasTermB {T : Type} (n : Node T) : Bool :=
  n.term || hasTermC n.children

/-- Every node of these subtrees sits at the depth recorded in its `depth`
field (`d` is the depth of the listed children). -/
def depthOkC {T : Type} (d : Nat) : Children T → Bool
  | .nil => true
  | .cons (.mk _ _ _ cd _ _ _ ccs) rest =>
      (cd == d) && depthOkC (d + 1) ccs && depthOkC d rest

/-- Depth bookkeeping for a node at depth `d` and its whole subtree. -/
def depthOkN {T : Type} (d : Nat) (n : Node T) : Bool :=
  (n.depth == d) && depthOkC (d + 1) n.children

/-- Every child list in these subtrees has pairwise distinct `val`s. -/
def uniqC {T : Type} : Children T → Bool
  | .nil => true
  | .cons (.mk cv _ _ _ _ _ _ ccs) rest =>
      !valMemB cv rest && uniqC ccs && uniqC rest

/-- Child-key uniqueness for a node's whole subtree. -/
def uniqN {T : Type} (n : Node T) : Bool :=
  uniqC n.children

/-- Every node of these subtrees has a mask containing its own rune bit and
all its children's masks (the no-false-negative property of the summary). -/
def maskOkC {T : Type} : Children T → Bool
  | .nil => true
  | .cons (.mk cv _ _ _ _ cmsk _ ccs) rest =>
      ((runeBit cv ||| maskUnion ccs) ||| cmsk == cmsk) && maskOkC ccs && maskOkC rest

/-- Mask containment for a node and its whole subtree. -/
def maskOkN {T : Type} (n : Node T) : Bool :=
  ((runeBit n.val ||| maskUnion n.children) ||| n.mask == n.mask) && maskOkC n.children

/-- Every terminal node of these subtrees has a `path` field spelling its
position: `path ++ [nul]` equals the rune path from the root (`pr` is the
rune path of the node owning the child list). -/
def pathOkC {T : Type} (pr : List Char) : Children T → Bool
  | .nil => true
  | .cons (.mk cv cp ctm _ _ _ _ ccs) rest =>
      (!ctm || (cp.toList ++ [nul] == pr ++ [cv])) &&
      pathOkC (pr ++ [cv]) ccs && pathOkC pr rest

/-- Path bookkeeping for a node whose own rune path is `pr`. -/
def pathOkN {T : Type} (pr : List Char) (n : Node T) : Bool :=
  (!n.term || (n.path.toList ++ [nul] == pr)) && pathOkC pr n.children

/-- Every strict descendant subtree of these children holds a terminal
node (no dangling chains). -/
def termOkC {T : Type} : Children T → Bool
  | .nil => true
  | .cons (.mk _ _ ctm _ _ _ _ ccs) rest =>
      (ctm || hasTermC ccs) && termOkC ccs && termOkC rest

/-- No dangling chains anywhere below a node. -/
def termOkN {T : Type} (n : Node T) : Bool :=
  termOkC n.children

/-- All structural invariants of a trie at once. -/
def wfTrie {T : Type} (t : Trie T) : Bool :=
  depthOkN 0 t.root && uniqN t.root && maskOkN t.root &&
  pathOkN [] t.root && termOkN t.root

/-- The exact-mask equation of the spec, checked at every node of these
subtrees: `subtreeMask` EQUALS the union of the node's own rune bit and its
children's masks. -/
def maskExactC {T : Type} : Children T → Bool
  | .nil => true
  | .cons (.mk cv _ _ _ _ cmsk _ ccs) rest =>
      (cmsk == runeBit cv ||| maskUnion ccs) && maskExactC ccs && maskExactC rest

/-- Every nul-valued node of these subtrees is a leaf: `Add` installs the
terminal sentinels with an empty child map and, for keys free of the nul
rune, never descends through them, so they stay childless. -/
def nulLeafC {T : Type} : Children T → Bool
  | .nil => true
  | .cons (.mk cv _ _ _ _ _ _ ccs) rest =>
      ((cv != nul || childCount ccs == 0) && nulLeafC ccs) && nulLeafC rest

/-- The nul-leaf property for a single node: a nul-valued node has no
children, and the property holds throughout its subtree. -/
def nulLeafN {T : Type} (n : Node T) : Bool :=
  (n.val != nul || childCount n.children == 0) && nulLeafC n.children

/-- Whether an operation adds only keys free of the nul rune (`Remove` is
unconstrained: it cannot create nodes). -/
def opNulFree {T : Type} : Op T → Bool
  | .add key _ => decide (nul ∉ key.toList)
  | .remove _ => true

/-
Child-map lemmas.
-/

theorem findChild_val {T : Type} (cs : Children T) {r : Char} {c : Node T}
    (h : findChild cs r = some c) : c.val = r := by
  cases cs with
  | nil => simp [findChild] at h
  | cons n rest =>
      unfold findChild at h
      by_cases hv : n.val = r
      · rw [if_pos hv] at h
        injection h with h
        rw [← h]; exact hv
      · rw [if_neg hv] at h
        exact findChild_val rest h

theorem findChild_setChild_self {T : Type} (cs : Children T) (c : Node T) :
    findChild (setChild cs c) c.val = some c := by
  cases cs with
  | nil =>
      unfold setChild findChild
      rw [if_pos rfl]
  | cons n rest =>
      unfold setChild
      by_cases hv : n.val = c.val
      · rw [if_pos hv]
        unfold findChild
        rw [if_pos rfl]
      · rw [if_neg hv]
        unfold findChild
        rw [if_neg hv]
        exact findChild_setChild_self rest c

theorem findChild_setChild_other {T : Type} (cs : Children T) (c : Node T)
    {r : Char} (h : r ≠ c.val) : findChild (setChild cs c) r = findChild cs r := by
  cases cs with
  | nil =>
      unfold setChild findChild findChild
      rw [if_neg (fun hh : c.val = r => h hh.symm)]
  | cons n rest =>
      unfold setChild
      by_cases hv : n.val = c.val
      · rw [if_pos hv]
        unfold findChild
        rw [if_neg (fun hh : c.val = r => h hh.symm), if_neg (hv ▸ fun hh : c.val = r => h hh.symm)]
      · rw [if_neg hv]
        unfold findChild
        by_cases hr : n.val = r
        · rw [if_pos hr, if_pos hr]
        · rw [if_neg hr, if_neg hr, findChild_setChild_other rest c h]

theorem valMem_false_findChild_none {T : Type} (cs : Children T) {r : Char}
    (h : valMemB r cs = false) : findChild cs r = none := by
  cases cs with
  | nil => rfl
  | cons n rest =>
      unfold valMemB at h
      simp only [Bool.or_eq_false_iff, beq_eq_false_iff_ne] at h
      unfold findChild
      rw [if_neg h.1, valMem_false_findChild_none rest h.2]

theorem eraseChild_findChild_none {T : Type} (cs : Children T) {r : Char}
    (h : uniqC cs = true) : findChild (eraseChild cs r) r = none := by
  cases cs with
  | nil => rfl
  | cons n rest =>
      cases n with
      | mk cv cp ctm cd cmt cmsk ctc ccs =>
          unfold uniqC at h
          simp only [Bool.and_eq_true, Bool.not_eq_true'] at h
          unfold eraseChild
          simp only [Node.val]
          by_cases hv : cv = r
          · rw [if_pos hv]
            exact valMem_false_findChild_none rest (hv ▸ h.1.1)
          · rw [if_neg hv]
            unfold findChild
            simp only [Node.val]
            rw [if_neg hv, eraseChild_findChild_none rest h.2]

theorem valMem_setChild {T : Type} (cs : Children T) (c : Node T) {x : Char}
    (h : valMemB x (setChild cs c) = true) : valMemB x cs = true ∨ x = c.val := by
  cases cs with
  | nil =>
      unfold setChild valMemB valMemB at h
      simp only [Bool.or_false] at h
      right
      exact (beq_iff_eq.mp h).symm
  | cons n rest =>
      unfold setChild at h
      by_cases hv : n.val = c.val
      · rw [if_pos hv] at h
        unfold valMemB at h
        rcases Bool.or_eq_true_iff.mp h with h | h
        · right; exact (beq_iff_eq.mp h).symm
        · left; unfold valMemB; rw [h]; simp
      · rw [if_neg hv] at h
        unfold valMemB at h
        rcases Bool.or_eq_true_iff.mp h with h | h
        · left; unfold valMemB; rw [h]; simp
        · rcases valMem_setChild rest c h with h | h
          · left; unfold valMemB; rw [h]; simp
          · right; exact h

@[simp] theorem recomputeMask_val {T : Type} (n : Node T) :
    (recomputeMask n).val = n.val := by
  cases n; rfl

@[simp] theorem recomputeMask_path {T : Type} (n : Node T) :
    (recomputeMask n).path = n.path := by
  cases n; rfl

@[simp] theorem recomputeMask_term {T : Type} (n : Node T) :
    (recomputeMask n).term = n.term := by
  cases n; rfl

@[simp] theorem recomputeMask_depth {T : Type} (n : Node T) :
    (recomputeMask n).depth = n.depth := by
  cases n; rfl

@[simp] theorem recomputeMask_children {T : Type} (n : Node T) :
    (recomputeMask n).children = n.children := by
  cases n; rfl

@[simp] theorem recomputeMask_mask {T : Type} (n : Node T) :
    (recomputeMask n).mask = runeBit n.val ||| maskUnion n.children := by
  cases n; rfl

@[simp] theorem withChildren_val {T : Type} (n : Node T) (cs : Children T) :
    (n.withChildren cs).val = n.val := by
  cases n; rfl

@[simp] theorem withChildren_path {T : Type} (n : Node T) (cs : Children T) :
    (n.withChildren cs).path = n.path := by
  cases n; rfl

@[simp] theorem withChildren_term {T : Type} (n : Node T) (cs : Children T) :
    (n.withChildren cs).term = n.term := by
  cases n; rfl

@[simp] theorem withChildren_depth {T : Type} (n : Node T) (cs : Children T) :
    (n.withChildren cs).depth = n.depth := by
  cases n; rfl

@[simp] theorem withChildren_mask {T : Type} (n : Node T) (cs : Children T) :
    (n.withChildren cs).mask = n.mask := by
  cases n; rfl

@[simp] theorem withChildren_children {T : Type} (n : Node T) (cs : Children T) :
    (n.withChildren cs).children = cs := by
  cases n; rfl

theorem getD_append_cons (pr : List Char) (r : Char) (l : List Char) (d : Char) :
    (pr ++ r :: l).getD pr.length d = r := by
  induction pr with
  | nil => rfl
  | cons x xs ih => simpa using ih

/-
Descent lemmas: each invariant restricts the child found by `findChild`.
-/

theorem depthOk_findChild {T : Type} (cs : Children T) {d : Nat} {r : Char} {c : Node T}
    (hp : depthOkC d cs = true) (h : findChild cs r = some c) : depthOkN d c = true := by
  cases cs with
  | nil => simp [findChild] at h
  | cons n rest =>
      cases n with
      | mk cv cp ctm cd cmt cmsk ctc ccs =>
          unfold depthOkC at hp
          simp only [Bool.and_eq_true] at hp
          unfold findChild at h
          by_cases hv : Node.val (.mk cv cp ctm cd cmt cmsk ctc ccs) = r
          · rw [if_pos hv] at h
            injection h with h
            rw [← h]
            unfold depthOkN
            simp only [Node.depth, Node.children, Bool.and_eq_true]
            exact ⟨hp.1.1, hp.1.2⟩
          · rw [if_neg hv] at h
            exact depthOk_findChild rest hp.2 h

theorem uniq_findChild {T : Type} (cs : Children T) {r : Char} {c : Node T}
    (hp : uniqC cs = true) (h : findChild cs r = some c) : uniqN c = true := by
  cases cs with
  | nil => simp [findChild] at h
  | cons n rest =>
      cases n with
      | mk cv cp ctm cd cmt cmsk ctc ccs =>
          unfold uniqC at hp
          simp only [Bool.and_eq_true] at hp
          unfold findChild at h
          by_cases hv : Node.val (.mk cv cp ctm cd cmt cmsk ctc ccs) = r
          · rw [if_pos hv] at h
            injection h with h
            rw [← h]
            exact hp.1.2
          · rw [if_neg hv] at h
            exact uniq_findChild rest hp.2 h

theorem maskOk_findChild {T : Type} (cs : Children T) {r : Char} {c : Node T}
    (hp : maskOkC cs = true) (h : findChild cs r = some c) : maskOkN c = true := by
  cases cs with
  | nil => simp [findChild] at h
  | cons n rest =>
      cases n with
      | mk cv cp ctm cd cmt cmsk ctc ccs =>
          unfold maskOkC at hp
          simp only [Bool.and_eq_true] at hp
          unfold findChild at h
          by_cases hv : Node.val (.mk cv cp ctm cd cmt cmsk ctc ccs) = r
          · rw [if_pos hv] at h
            injection h with h
            rw [← h]
            unfold maskOkN
            simp only [Node.val, Node.mask, Node.children, Bool.and_eq_true]
            exact ⟨hp.1.1, hp.1.2⟩
          · rw [if_neg hv] at h
            exact maskOk_findChild rest hp.2 h

theorem pathOk_findChild {T : Type} (cs : Children T) {pr : List Char} {r : Char} {c : Node T}
    (hp : pathOkC pr cs = true) (h : findChild cs r = some c) :
    pathOkN (pr ++ [r]) c = true := by
  cases cs with
  | nil => simp [findChild] at h
  | cons n rest =>
      cases n with
      | mk cv cp ctm cd cmt cmsk ctc ccs =>
          unfold pathOkC at hp
          simp only [Bool.and_eq_true] at hp
          unfold findChild at h
          by_cases hv : Node.val (.mk cv cp ctm cd cmt cmsk ctc ccs) = r
          · rw [if_pos hv] at h
            injection h with h
            have hcv : cv = r := hv
            rw [← h]
            unfold pathOkN
            simp only [Node.term, Node.path, Node.children, Bool.and_eq_true]
            rw [← hcv]
            exact ⟨hp.1.1, hp.1.2⟩
          · rw [if_neg hv] at h
            exact pathOk_findChild rest hp.2 h

theorem termOk_findChild {T : Type} (cs : Children T) {r : Char} {c : Node T}
    (hp : termOkC cs = true) (h : findChild cs r = some c) :
    termOkN c = true ∧ hasTermB c = true := by
  cases cs with
  | nil => simp [findChild] at h
  | cons n rest =>
      cases n with
      | mk cv cp ctm cd cmt cmsk ctc ccs =>
          unfold termOkC at hp
          simp only [Bool.and_eq_true] at hp
          unfold findChild at h
          by_cases hv : Node.val (.mk cv cp ctm cd cmt cmsk ctc ccs) = r
          · rw [if_pos hv] at h
            injection h with h
            rw [← h]
            constructor
            · exact hp.1.2
            · unfold hasTermB
              simp only [Node.term, Node.children]
              exact hp.1.1
          · rw [if_neg hv] at h
            exact termOk_findChild rest hp.2 h

theorem maskUnion_findChild {T : Type} (cs : Children T) {r : Char} {c : Node T}
    (h : findChild cs r = some c) : c.mask ||| maskUnion cs = maskUnion cs := by
  cases cs with
  | nil => simp [findChild] at h
  | cons n rest =>
      unfold findChild at h
      by_cases hv : n.val = r
      · rw [if_pos hv] at h
        injection h with h
        rw [← h]
        unfold maskUnion
        exact msub_lor_left _ _
      · rw [if_neg hv] at h
        unfold maskUnion
        exact msub_trans (maskUnion_findChild rest h) (msub_lor_right _ _)

/-- The mask of a node bounds the rune mask of any path that descends from
it (the chain form of the no-false-negative invariant). -/
theorem maskOk_chain {T : Type} (rs : List Char) : ∀ (n : Node T) {x : Node T},
    maskOkN n = true → findNode n rs = some x →
    maskruneslice rs ||| n.mask = n.mask := by
  induction rs with
  | nil =>
      intro n x _ _
      rw [maskruneslice_nil]
      exact msub_zero _
  | cons r rest ih =>
      intro n x hm hf
      unfold findNode at hf
      cases hc : findChild n.children r with
      | none => rw [hc] at hf; cases hf
      | some c =>
          rw [hc] at hf
          have hcm : maskOkN c = true := by
            unfold maskOkN at hm
            simp only [Bool.and_eq_true] at hm
            exact maskOk_findChild n.children hm.2 hc
          have hsub : c.mask ||| n.mask = n.mask := by
            unfold maskOkN at hm
            simp only [Bool.and_eq_true, beq_iff_eq] at hm
            exact msub_trans (maskUnion_findChild n.children hc)
              (msub_of_lor_right hm.1)
          have hbit : runeBit r ||| c.mask = c.mask := by
            unfold maskOkN at hcm
            simp only [Bool.and_eq_true, beq_iff_eq] at hcm
            have := msub_of_lor_left hcm.1
            rw [findChild_val n.children hc] at this
            exact this
          rw [maskruneslice_cons]
          exact msub_lub (msub_trans hbit hsub) (msub_trans (ih c hcm hf) hsub)

theorem findNode_append {T : Type} (xs ys : List Char) : ∀ (n : Node T),
    findNode n (xs ++ ys) =
      match findNode n xs with
      | none => none
      | some x => findNode x ys := by
  induction xs with
  | nil => intro n; rfl
  | cons r rest ih =>
      intro n
      rw [List.cons_append]
      simp only [findNode]
      cases hc : findChild n.children r with
      | none => rfl
      | some c => exact ih c

/-
Invariant preservation under the child-map operations.
-/

theorem depthOk_setChild {T : Type} (cs : Children T) (c : Node T) {d : Nat}
    (hp : depthOkC d cs = true) (hc : depthOkN d c = true) :
    depthOkC d (setChild cs c) = true := by
  cases c with
  | mk cv cp ctm cd cmt cmsk ctc ccs =>
      unfold depthOkN at hc
      simp only [Node.depth, Node.children, Bool.and_eq_true] at hc
      cases cs with
      | nil =>
          simp only [setChild, depthOkC, Bool.and_eq_true]
          exact ⟨⟨hc.1, hc.2⟩, trivial⟩
      | cons n rest =>
          cases n with
          | mk nv np ntm ndd nmt nmsk ntc ncs =>
              unfold depthOkC at hp
              simp only [Bool.and_eq_true] at hp
              unfold setChild
              simp only [Node.val]
              by_cases hv : nv = cv
              · rw [if_pos hv]
                unfold depthOkC
                simp only [Bool.and_eq_true]
                exact ⟨⟨hc.1, hc.2⟩, hp.2⟩
              · rw [if_neg hv]
                unfold depthOkC
                simp only [Bool.and_eq_true]
                refine ⟨⟨hp.1.1, hp.1.2⟩, ?_⟩
                exact depthOk_setChild rest _ hp.2 (by
                  unfold depthOkN
                  simp only [Node.depth, Node.children, Bool.and_eq_true]
                  exact ⟨hc.1, hc.2⟩)

theorem depthOk_eraseChild {T : Type} (cs : Children T) (r : Char) {d : Nat}
    (hp : depthOkC d cs = true) : depthOkC d (eraseChild cs r) = true := by
  cases cs with
  | nil => rfl
  | cons n rest =>
      cases n with
      | mk nv np ntm ndd nmt nmsk ntc ncs =>
          unfold depthOkC at hp
          simp only [Bool.and_eq_true] at hp
          unfold eraseChild
          simp only [Node.val]
          by_cases hv : nv = r
          · rw [if_pos hv]; exact hp.2
          · rw [if_neg hv]
            unfold depthOkC
            simp only [Bool.and_eq_true]
            exact ⟨⟨hp.1.1, hp.1.2⟩, depthOk_eraseChild rest r hp.2⟩

theorem uniq_setChild {T : Type} (cs : Children T) (c : Node T)
    (hp : uniqC cs = true) (hc : uniqC c.children = true) :
    uniqC (setChild cs c) = true := by
  cases c with
  | mk cv cp ctm cd cmt cmsk ctc ccs =>
      simp only [Node.children] at hc
      cases cs with
      | nil =>
          simp only [setChild, uniqC, valMemB, Bool.and_eq_true]
          exact ⟨⟨rfl, hc⟩, trivial⟩
      | cons n rest =>
          cases n with
          | mk nv np ntm ndd nmt nmsk ntc ncs =>
              unfold uniqC at hp
              simp only [Bool.and_eq_true] at hp
              unfold setChild
              simp only [Node.val]
              by_cases hv : nv = cv
              · rw [if_pos hv]
                unfold uniqC
                simp only [Bool.and_eq_true]
                exact ⟨⟨by rw [← hv]; exact hp.1.1, hc⟩, hp.2⟩
              · rw [if_neg hv]
                unfold uniqC
                simp only [Bool.and_eq_true]
                refine ⟨⟨?_, hp.1.2⟩, uniq_setChild rest _ hp.2 (by simp [Node.children, hc])⟩
                simp only [Bool.not_eq_true']
                cases hm : valMemB nv (setChild rest (.mk cv cp ctm cd cmt cmsk ctc ccs)) with
                | false => rfl
                | true =>
                    rcases valMem_setChild rest _ hm with h | h
                    · rw [h] at hp
                      simp at hp
                    · exact absurd (h ▸ rfl : nv = cv) hv

theorem valMem_eraseChild {T : Type} (cs : Children T) {r x : Char}
    (h : valMemB x (eraseChild cs r) = true) : valMemB x cs = true := by
  cases cs with
  | nil => cases h
  | cons n rest =>
      unfold eraseChild at h
      by_cases hv : n.val = r
      · rw [if_pos hv] at h
        unfold valMemB
        rw [h]
        simp
      · rw [if_neg hv] at h
        unfold valMemB at h ⊢
        rcases Bool.or_eq_true_iff.mp h with h | h
        · rw [h]; simp
        · rw [valMem_eraseChild rest h]; simp

theorem uniq_eraseChild {T : Type} (cs : Children T) (r : Char)
    (hp : uniqC cs = true) : uniqC (eraseChild cs r) = true := by
  cases cs with
  | nil => rfl
  | cons n rest =>
      cases n with
      | mk nv np ntm ndd nmt nmsk ntc ncs =>
          unfold uniqC at hp
          simp only [Bool.and_eq_true] at hp
          unfold eraseChild
          simp only [Node.val]
          by_cases hv : nv = r
          · rw [if_pos hv]; exact hp.2
          · rw [if_neg hv]
            unfold uniqC
            simp only [Bool.and_eq_true]
            refine ⟨⟨?_, hp.1.2⟩, uniq_eraseChild rest r hp.2⟩
            simp only [Bool.not_eq_true']
            cases hm : valMemB nv (eraseChild rest r) with
            | false => rfl
            | true =>
                rw [valMem_eraseChild rest hm] at hp
                simp at hp

theorem maskUnion_setChild {T : Type} (cs : Children T) (c : Node T) :
    maskUnion (setChild cs c) ||| (maskUnion cs ||| c.mask) = maskUnion cs ||| c.mask := by
  cases cs with
  | nil =>
      simp only [setChild, maskUnion]
      rw [msub_iff]
      intro i hi
      simp only [Nat.testBit_or, Bool.or_eq_true] at hi ⊢
      tauto
  | cons n rest =>
      by_cases hv : n.val = c.val
      · simp only [setChild, if_pos hv, maskUnion]
        rw [msub_iff]
        intro i hi
        simp only [Nat.testBit_or, Bool.or_eq_true] at hi ⊢
        tauto
      · simp only [setChild, if_neg hv, maskUnion]
        have ih := msub_iff.mp (maskUnion_setChild rest c)
        rw [msub_iff]
        intro i hi
        simp only [Nat.testBit_or, Bool.or_eq_true] at hi ⊢
        rcases hi with hi | hi
        · tauto
        · have h2 := ih i hi
          simp only [Nat.testBit_or, Bool.or_eq_true] at h2
          tauto

theorem maskUnion_eraseChild {T : Type} (cs : Children T) (r : Char) :
    maskUnion (eraseChild cs r) ||| maskUnion cs = maskUnion cs := by
  cases cs with
  | nil => exact msub_zero _
  | cons n rest =>
      by_cases hv : n.val = r
      · simp only [eraseChild, if_pos hv, maskUnion]
        exact msub_lor_right _ _
      · simp only [eraseChild, if_neg hv, maskUnion]
        have ih := msub_iff.mp (maskUnion_eraseChild rest r)
        rw [msub_iff]
        intro i hi
        simp only [Nat.testBit_or, Bool.or_eq_true] at hi ⊢
        rcases hi with hi | hi
        · tauto
        · have h2 := ih i hi
          tauto

theorem maskOk_setChild {T : Type} (cs : Children T) (c : Node T)
    (hp : maskOkC cs = true) (hc : maskOkN c = true) :
    maskOkC (setChild cs c) = true := by
  cases c with
  | mk cv cp ctm cd cmt cmsk ctc ccs =>
      unfold maskOkN at hc
      simp only [Node.val, Node.mask, Node.children, Bool.and_eq_true] at hc
      cases cs with
      | nil =>
          simp only [setChild, maskOkC, Bool.and_eq_true]
          exact ⟨⟨hc.1, hc.2⟩, trivial⟩
      | cons n rest =>
          cases n with
          | mk nv np ntm ndd nmt nmsk ntc ncs =>
              unfold maskOkC at hp
              simp only [Bool.and_eq_true] at hp
              unfold setChild
              simp only [Node.val]
              by_cases hv : nv = cv
              · rw [if_pos hv]
                unfold maskOkC
                simp only [Bool.and_eq_true]
                exact ⟨⟨hc.1, hc.2⟩, hp.2⟩
              · rw [if_neg hv]
                unfold maskOkC
                simp only [Bool.and_eq_true]
                refine ⟨⟨hp.1.1, hp.1.2⟩, ?_⟩
                exact maskOk_setChild rest _ hp.2 (by
                  unfold maskOkN
                  simp only [Node.val, Node.mask, Node.children, Bool.and_eq_true]
                  exact ⟨hc.1, hc.2⟩)

theorem maskOk_eraseChild {T : Type} (cs : Children T) (r : Char)
    (hp : maskOkC cs = true) : maskOkC (eraseChild cs r) = true := by
  cases cs with
  | nil => rfl
  | cons n rest =>
      cases n with
      | mk nv np ntm ndd nmt nmsk ntc ncs =>
          unfold maskOkC at hp
          simp only [Bool.and_eq_true] at hp
          unfold eraseChild
          simp only [Node.val]
          by_cases hv : nv = r
          · rw [if_pos hv]; exact hp.2
          · rw [if_neg hv]
            unfold maskOkC
            simp only [Bool.and_eq_true]
            exact ⟨⟨hp.1.1, hp.1.2⟩, maskOk_eraseChild rest r hp.2⟩

theorem pathOk_setChild {T : Type} (cs : Children T) (c : Node T) {pr : List Char}
    (hp : pathOkC pr cs = true) (hc : pathOkN (pr ++ [c.val]) c = true) :
    pathOkC pr (setChild cs c) = true := by
  cases c with
  | mk cv cp ctm cd cmt cmsk ctc ccs =>
      unfold pathOkN at hc
      simp only [Node.val, Node.term, Node.path, Node.children, Bool.and_eq_true] at hc
      cases cs with
      | nil =>
          simp only [setChild, pathOkC, Bool.and_eq_true]
          exact ⟨⟨hc.1, hc.2⟩, trivial⟩
      | cons n rest =>
          cases n with
          | mk nv np ntm ndd nmt nmsk ntc ncs =>
              unfold pathOkC at hp
              simp only [Bool.and_eq_true] at hp
              unfold setChild
              simp only [Node.val]
              by_cases hv : nv = cv
              · rw [if_pos hv]
                unfold pathOkC
                simp only [Bool.and_eq_true]
                exact ⟨⟨hc.1, hc.2⟩, hp.2⟩
              · rw [if_neg hv]
                unfold pathOkC
                simp only [Bool.and_eq_true]
                refine ⟨⟨hp.1.1, hp.1.2⟩, ?_⟩
                exact pathOk_setChild rest _ hp.2 (by
                  unfold pathOkN
                  simp only [Node.val, Node.term, Node.path, Node.children, Bool.and_eq_true]
                  exact ⟨hc.1, hc.2⟩)

theorem pathOk_eraseChild {T : Type} (cs : Children T) (r : Char) {pr : List Char}
    (hp : pathOkC pr cs = true) : pathOkC pr (eraseChild cs r) = true := by
  cases cs with
  | nil => rfl
  | cons n rest =>
      cases n with
      | mk nv np ntm ndd nmt nmsk ntc ncs =>
          unfold pathOkC at hp
          simp only [Bool.and_eq_true] at hp
          unfold eraseChild
          simp only [Node.val]
          by_cases hv : nv = r
          · rw [if_pos hv]; exact hp.2
          · rw [if_neg hv]
            unfold pathOkC
            simp only [Bool.and_eq_true]
            exact ⟨⟨hp.1.1, hp.1.2⟩, pathOk_eraseChild rest r hp.2⟩

theorem hasTermC_setChild_of {T : Type} (cs : Children T) (c : Node T)
    (hc : hasTermB c = true) : hasTermC (setChild cs c) = true := by
  cases c with
  | mk cv cp ctm cd cmt cmsk ctc ccs =>
      unfold hasTermB at hc
      simp only [Node.term, Node.children, Bool.or_eq_true] at hc
      cases cs with
      | nil =>
          unfold setChild hasTermC
          rcases hc with hc | hc
          · rw [hc]; simp
          · rw [hc]; simp
      | cons n rest =>
          cases n with
          | mk nv np ntm ndd nmt nmsk ntc ncs =>
              unfold setChild
              simp only [Node.val]
              by_cases hv : nv = cv
              · rw [if_pos hv]
                unfold hasTermC
                rcases hc with hc | hc
                · rw [hc]; simp
                · rw [hc]; simp
              · rw [if_neg hv]
                unfold hasTermC
                rw [hasTermC_setChild_of rest _ (by
                  unfold hasTermB
                  simp only [Node.term, Node.children, Bool.or_eq_true]
                  exact hc)]
                simp

theorem termOk_setChild {T : Type} (cs : Children T) (c : Node T)
    (hp : termOkC cs = true) (hc1 : hasTermB c = true) (hc2 : termOkN c = true) :
    termOkC (setChild cs c) = true := by
  cases c with
  | mk cv cp ctm cd cmt cmsk ctc ccs =>
      unfold hasTermB at hc1
      unfold termOkN at hc2
      simp only [Node.term, Node.children, Bool.or_eq_true] at hc1 hc2
      cases cs with
      | nil =>
          simp only [setChild, termOkC, Bool.and_eq_true]
          refine ⟨⟨?_, hc2⟩, trivial⟩
          rcases hc1 with hc | hc
          · rw [hc]; simp
          · rw [hc]; simp
      | cons n rest =>
          cases n with
          | mk nv np ntm ndd nmt nmsk ntc ncs =>
              unfold termOkC at hp
              simp only [Bool.and_eq_true] at hp
              unfold setChild
              simp only [Node.val]
              by_cases hv : nv = cv
              · rw [if_pos hv]
                unfold termOkC
                simp only [Bool.and_eq_true]
                refine ⟨⟨?_, hc2⟩, hp.2⟩
                rcases hc1 with hc | hc
                · rw [hc]; simp
                · rw [hc]; simp
              · rw [if_neg hv]
                unfold termOkC
                simp only [Bool.and_eq_true]
                refine ⟨⟨hp.1.1, hp.1.2⟩, ?_⟩
                exact termOk_setChild rest _ hp.2 (by
                  unfold hasTermB
                  simp only [Node.term, Node.children, Bool.or_eq_true]
                  exact hc1) (by
                  unfold termOkN
                  simp only [Node.children]
                  exact hc2)

theorem termOk_eraseChild {T : Type} (cs : Children T) (r : Char)
    (hp : termOkC cs = true) : termOkC (eraseChild cs r) = true := by
  cases cs with
  | nil => rfl
  | cons n rest =>
      cases n with
      | mk nv np ntm ndd nmt nmsk ntc ncs =>
          unfold termOkC at hp
          simp only [Bool.and_eq_true] at hp
          unfold eraseChild
          simp only [Node.val]
          by_cases hv : nv = r
          · rw [if_pos hv]; exact hp.2
          · rw [if_neg hv]
            unfold termOkC
            simp only [Bool.and_eq_true]
            exact ⟨⟨hp.1.1, hp.1.2⟩, termOk_eraseChild rest r hp.2⟩

theorem termOk_erase_hasTerm {T : Type} (cs : Children T) (r : Char)
    (hp : termOkC cs = true) (hn : 1 < childCount cs) :
    hasTermC (eraseChild cs r) = true := by
  cases cs with
  | nil => simp [childCount] at hn
  | cons n rest =>
      cases n with
      | mk nv np ntm ndd nmt nmsk ntc ncs =>
          unfold termOkC at hp
          simp only [Bool.and_eq_true] at hp
          unfold eraseChild
          simp only [Node.val]
          by_cases hv : nv = r
          · rw [if_pos hv]
            unfold childCount at hn
            cases rest with
            | nil => simp [childCount] at hn
            | cons m rest2 =>
                cases m with
                | mk mv mp mtm mdd mmt mmsk mtc mcs =>
                    unfold termOkC at hp
                    simp only [Bool.and_eq_true] at hp
                    unfold hasTermC
                    rcases Bool.or_eq_true_iff.mp hp.2.1.1 with h | h
                    · rw [h]; simp
                    · rw [h]; simp
          · rw [if_neg hv]
            unfold hasTermC
            rcases Bool.or_eq_true_iff.mp hp.1.1 with h | h
            · rw [h]; simp
            · rw [h]; simp

/-
Constructor-level restatements of the invariants.
-/

theorem depthOkN_mk {T : Type} {dd : Nat} {v p tm d mt msk tc} {cs : Children T} :
    depthOkN dd (.mk v p tm d mt msk tc cs) = true ↔
    d = dd ∧ depthOkC (dd + 1) cs = true := by
  unfold depthOkN
  simp [Node.depth, Node.children]

theorem uniqN_mk {T : Type} {v p tm d mt msk tc} {cs : Children T} :
    uniqN (T := T) (.mk v p tm d mt msk tc cs) = uniqC cs := rfl

theorem maskOkN_mk {T : Type} {v p tm d mt msk tc} {cs : Children T} :
    maskOkN (T := T) (.mk v p tm d mt msk tc cs) = true ↔
    (runeBit v ||| maskUnion cs) ||| msk = msk ∧ maskOkC cs = true := by
  unfold maskOkN
  simp [Node.val, Node.mask, Node.children]

theorem pathOkN_mk {T : Type} {pr : List Char} {v p tm d mt msk tc} {cs : Children T} :
    pathOkN (T := T) pr (.mk v p tm d mt msk tc cs) = true ↔
    (tm = true → p.toList ++ [nul] = pr) ∧ pathOkC pr cs = true := by
  unfold pathOkN
  cases tm <;> simp [Node.term, Node.path, Node.children]

theorem termOkN_mk {T : Type} {v p tm d mt msk tc} {cs : Children T} :
    termOkN (T := T) (.mk v p tm d mt msk tc cs) = termOkC cs := rfl

theorem hasTermB_mk {T : Type} {v p tm d mt msk tc} {cs : Children T} :
    hasTermB (T := T) (.mk v p tm d mt msk tc cs) = (tm || hasTermC cs) := rfl

/-
Shape facts about `addGo`.
-/

theorem addGo_val {T : Type} (n : Node T) (rs : List Char) (key : String) (meta : T) :
    (addGo n rs key meta).val = n.val := by
  cases n with
  | mk v p tm d mt msk tc cs =>
      cases rs with
      | nil => rfl
      | cons r rest =>
          unfold addGo
          cases hc : findChild cs r with
          | none => rfl
          | some c => cases c; rfl

theorem addGo_path {T : Type} (n : Node T) (rs : List Char) (key : String) (meta : T) :
    (addGo n rs key meta).path = n.path := by
  cases n with
  | mk v p tm d mt msk tc cs =>
      cases rs with
      | nil => rfl
      | cons r rest =>
          unfold addGo
          cases hc : findChild cs r with
          | none => rfl
          | some c => cases c; rfl

theorem addGo_term {T : Type} (n : Node T) (rs : List Char) (key : String) (meta : T) :
    (addGo n rs key meta).term = n.term := by
  cases n with
  | mk v p tm d mt msk tc cs =>
      cases rs with
      | nil => rfl
      | cons r rest =>
          unfold addGo
          cases hc : findChild cs r with
          | none => rfl
          | some c => cases c; rfl

theorem addGo_depth {T : Type} (n : Node T) (rs : List Char) (key : String) (meta : T) :
    (addGo n rs key meta).depth = n.depth := by
  cases n with
  | mk v p tm d mt msk tc cs =>
      cases rs with
      | nil => rfl
      | cons r rest =>
          unfold addGo
          cases hc : findChild cs r with
          | none => rfl
          | some c => cases c; rfl

theorem addGo_mask_cases {T : Type} (n : Node T) (rs : List Char) (key : String) (meta : T) :
    (addGo n rs key meta).mask = n.mask ∨
    (addGo n rs key meta).mask = n.mask ||| maskruneslice rs := by
  cases n with
  | mk v p tm d mt msk tc cs =>
      cases rs with
      | nil => left; rfl
      | cons r rest =>
          unfold addGo
          cases hc : findChild cs r with
          | none => right; rfl
          | some c => cases c; left; rfl

theorem addGo_mask_le {T : Type} (n : Node T) (rs : List Char) (key : String) (meta : T) :
    (addGo n rs key meta).mask ||| (n.mask ||| maskruneslice rs) =
      n.mask ||| maskruneslice rs := by
  rcases addGo_mask_cases n rs key meta with h | h
  · rw [h]; exact msub_lor_left _ _
  · rw [h]; exact msub_refl _

/-
Invariant preservation along `addGo`.
-/

theorem depthOk_addGo {T : Type} (rs : List Char) :
    ∀ (n : Node T) (dd : Nat) (key : String) (meta : T),
    depthOkN dd n = true → depthOkN dd (addGo n rs key meta) = true := by
  induction rs with
  | nil =>
      intro n dd key meta h
      cases n with
      | mk v p tm d mt msk tc cs =>
          rcases depthOkN_mk.mp h with ⟨hd, hcs⟩
          unfold addGo
          rw [depthOkN_mk]
          refine ⟨hd, ?_⟩
          refine depthOk_setChild cs _ hcs ?_
          rw [depthOkN_mk]
          exact ⟨by rw [hd], rfl⟩
  | cons r rest ih =>
      intro n dd key meta h
      cases n with
      | mk v p tm d mt msk tc cs =>
          rcases depthOkN_mk.mp h with ⟨hd, hcs⟩
          unfold addGo
          cases hc : findChild cs r with
          | none =>
              rw [depthOkN_mk]
              refine ⟨hd, ?_⟩
              refine depthOk_setChild cs _ hcs ?_
              have := ih (.mk r "" false (d + 1) none (maskruneslice (r :: rest)) 1 .nil)
                (dd + 1) key meta (by rw [depthOkN_mk]; exact ⟨by rw [hd], rfl⟩)
              cases hcase : addGo (.mk r "" false (d + 1) none (maskruneslice (r :: rest)) 1 .nil) rest key meta with
              | mk av ap atm ad amt amsk atc acs => rw [hcase] at this; exact this
          | some c =>
              cases c with
              | mk cv cp ctm cd cmt cmk ctc ccs =>
                  have hcd := depthOk_findChild cs hcs hc
                  rcases depthOkN_mk.mp hcd with ⟨hcd1, hcd2⟩
                  rw [depthOkN_mk]
                  refine ⟨hd, ?_⟩
                  refine depthOk_setChild cs _ hcs ?_
                  exact ih (.mk cv cp ctm cd cmt (cmk ||| maskruneslice (r :: rest)) (ctc + 1) ccs)
                    (dd + 1) key meta (by rw [depthOkN_mk]; exact ⟨hcd1, hcd2⟩)

theorem uniq_addGo {T : Type} (rs : List Char) :
    ∀ (n : Node T) (key : String) (meta : T),
    uniqN n = true → uniqN (addGo n rs key meta) = true := by
  induction rs with
  | nil =>
      intro n key meta h
      cases n with
      | mk v p tm d mt msk tc cs =>
          rw [uniqN_mk] at h
          unfold addGo
          rw [uniqN_mk]
          exact uniq_setChild cs _ h rfl
  | cons r rest ih =>
      intro n key meta h
      cases n with
      | mk v p tm d mt msk tc cs =>
          rw [uniqN_mk] at h
          unfold addGo
          cases hc : findChild cs r with
          | none =>
              rw [uniqN_mk]
              refine uniq_setChild cs _ h ?_
              have := ih (.mk r "" false (d + 1) none (maskruneslice (r :: rest)) 1 .nil)
                key meta rfl
              exact this
          | some c =>
              cases c with
              | mk cv cp ctm cd cmt cmk ctc ccs =>
                  have hcu := uniq_findChild cs h hc
                  rw [uniqN_mk] at hcu
                  rw [uniqN_mk]
                  refine uniq_setChild cs _ h ?_
                  exact ih (.mk cv cp ctm cd cmt (cmk ||| maskruneslice (r :: rest)) (ctc + 1) ccs)
                    key meta hcu

theorem msub_mp {a b : Nat} (h : a ||| b = b) :
    ∀ i, a.testBit i = true → b.testBit i = true := msub_iff.mp h

theorem runeBit_nul : runeBit nul = 0 := by decide

theorem maskOk_addGo {T : Type} (rs : List Char) :
    ∀ (n : Node T) (key : String) (meta : T),
    maskOkN n = true → maskruneslice rs ||| n.mask = n.mask →
    maskOkN (addGo n rs key meta) = true := by
  induction rs with
  | nil =>
      intro n key meta h _
      cases n with
      | mk v p tm d mt msk tc cs =>
          rcases maskOkN_mk.mp h with ⟨h1, h2⟩
          unfold addGo
          rw [maskOkN_mk]
          constructor
          · have hset := msub_mp (maskUnion_setChild cs (.mk nul key true (d + 1) (some meta) 0 0 .nil))
            have hold := msub_mp h1
            rw [msub_iff]
            intro i hi
            simp only [Nat.testBit_or, Bool.or_eq_true] at hi
            rcases hi with hi | hi
            · exact hold i (by simp only [Nat.testBit_or, Bool.or_eq_true]; left; exact hi)
            · have := hset i hi
              simp only [Node.mask, Nat.testBit_or, Bool.or_eq_true] at this
              rcases this with this | this
              · exact hold i (by simp only [Nat.testBit_or, Bool.or_eq_true]; right; exact this)
              · rw [Nat.zero_testBit] at this; cases this
          · refine maskOk_setChild cs _ h2 ?_
            rw [maskOkN_mk]
            refine ⟨?_, rfl⟩
            rw [runeBit_nul]
            simp only [maskUnion]
            rfl
  | cons r rest ih =>
      intro n key meta h hbm
      cases n with
      | mk v p tm d mt msk tc cs =>
          rcases maskOkN_mk.mp h with ⟨h1, h2⟩
          have hbm' : maskruneslice (r :: rest) = runeBit r ||| maskruneslice rest :=
            maskruneslice_cons r rest
          simp only [Node.mask] at hbm
          unfold addGo
          cases hc : findChild cs r with
          | none =>
              rw [maskOkN_mk]
              have hresmask := addGo_mask_le
                (.mk r "" false (d + 1) none (maskruneslice (r :: rest)) 1 .nil) rest key meta
              simp only [Node.mask] at hresmask
              constructor
              · have hset := msub_mp (maskUnion_setChild cs
                  (addGo (.mk r "" false (d + 1) none (maskruneslice (r :: rest)) 1 .nil) rest key meta))
                have hold := msub_mp h1
                have hres := msub_mp hresmask
                rw [msub_iff]
                intro i hi
                simp only [Nat.testBit_or, Bool.or_eq_true] at hi ⊢
                rcases hi with hi | hi
                · left
                  exact hold i (by simp only [Nat.testBit_or, Bool.or_eq_true]; left; exact hi)
                · have := hset i hi
                  simp only [Nat.testBit_or, Bool.or_eq_true] at this
                  rcases this with this | this
                  · left
                    exact hold i (by simp only [Nat.testBit_or, Bool.or_eq_true]; right; exact this)
                  · have h3 := hres i this
                    simp only [Nat.testBit_or, Bool.or_eq_true] at h3
                    rcases h3 with h3 | h3
                    · right; exact h3
                    · right
                      rw [hbm']
                      simp only [Nat.testBit_or, Bool.or_eq_true]
                      right; exact h3
              · refine maskOk_setChild cs _ h2 ?_
                refine ih _ key meta ?_ ?_
                · rw [maskOkN_mk]
                  refine ⟨?_, rfl⟩
                  rw [msub_iff]
                  intro i hi
                  simp only [maskUnion, Nat.testBit_or, Bool.or_eq_true] at hi
                  rcases hi with hi | hi
                  · rw [hbm']
                    simp only [Nat.testBit_or, Bool.or_eq_true]
                    left; exact hi
                  · rw [Nat.zero_testBit] at hi; cases hi
                · simp only [Node.mask]
                  rw [hbm']
                  exact msub_lor_right _ _
          | some c =>
              cases c with
              | mk cv cp ctm cd cmt cmk ctc ccs =>
                  have hcm := maskOk_findChild cs h2 hc
                  rcases maskOkN_mk.mp hcm with ⟨hc1, hc2⟩
                  have hcmsub : cmk ||| msk = msk := by
                    have := maskUnion_findChild cs hc
                    simp only [Node.mask] at this
                    exact msub_trans this (msub_of_lor_right h1)
                  have hressub : (addGo (.mk cv cp ctm cd cmt (cmk ||| maskruneslice (r :: rest)) (ctc + 1) ccs) rest key meta).mask |||
                      (cmk ||| maskruneslice (r :: rest)) = cmk ||| maskruneslice (r :: rest) := by
                    have := addGo_mask_le (.mk cv cp ctm cd cmt (cmk ||| maskruneslice (r :: rest)) (ctc + 1) ccs) rest key meta
                    simp only [Node.mask] at this
                    refine msub_trans this ?_
                    rw [msub_iff]
                    intro i hi
                    simp only [Nat.testBit_or, Bool.or_eq_true] at hi ⊢
                    rcases hi with (hi | hi) | hi
                    · left; exact hi
                    · right; exact hi
                    · right
                      rw [hbm']
                      simp only [Nat.testBit_or, Bool.or_eq_true]
                      right; exact hi
                  rw [maskOkN_mk]
                  constructor
                  · have hset := msub_mp (maskUnion_setChild cs
                      (addGo (.mk cv cp ctm cd cmt (cmk ||| maskruneslice (r :: rest)) (ctc + 1) ccs) rest key meta))
                    have hold := msub_mp h1
                    have hres := msub_mp hressub
                    have hbmsub := msub_mp hbm
                    have hcsub := msub_mp hcmsub
                    rw [msub_iff]
                    intro i hi
                    simp only [Nat.testBit_or, Bool.or_eq_true] at hi
                    rcases hi with hi | hi
                    · exact hold i (by simp only [Nat.testBit_or, Bool.or_eq_true]; left; exact hi)
                    · have := hset i hi
                      simp only [Nat.testBit_or, Bool.or_eq_true] at this
                      rcases this with this | this
                      · exact hold i (by simp only [Nat.testBit_or, Bool.or_eq_true]; right; exact this)
                      · have h3 := hres i this
                        simp only [Nat.testBit_or, Bool.or_eq_true] at h3
                        rcases h3 with h3 | h3
                        · exact hcsub i h3
                        · exact hbmsub i h3
                  · refine maskOk_setChild cs _ h2 ?_
                    refine ih _ key meta ?_ ?_
                    · rw [maskOkN_mk]
                      refine ⟨?_, hc2⟩
                      rw [msub_iff]
                      intro i hi
                      have := msub_mp hc1 i
                      simp only [Nat.testBit_or, Bool.or_eq_true] at hi this ⊢
                      left
                      exact this hi
                    · simp only [Node.mask]
                      rw [msub_iff]
                      intro i hi
                      simp only [Nat.testBit_or, Bool.or_eq_true]
                      right
                      rw [hbm']
                      simp only [Nat.testBit_or, Bool.or_eq_true]
                      right; exact hi

theorem pathOk_addGo {T : Type} (rs : List Char) :
    ∀ (n : Node T) (pr : List Char) (key : String) (meta : T),
    pathOkN pr n = true → key.toList = pr ++ rs →
    pathOkN pr (addGo n rs key meta) = true := by
  induction rs with
  | nil =>
      intro n pr key meta h hk
      cases n with
      | mk v p tm d mt msk tc cs =>
          rcases pathOkN_mk.mp h with ⟨h1, h2⟩
          rw [List.append_nil] at hk
          unfold addGo
          rw [pathOkN_mk]
          refine ⟨h1, ?_⟩
          refine pathOk_setChild cs _ h2 ?_
          rw [pathOkN_mk]
          refine ⟨fun _ => ?_, rfl⟩
          simp only [Node.val]
          rw [hk]
  | cons r rest ih =>
      intro n pr key meta h hk
      cases n with
      | mk v p tm d mt msk tc cs =>
          rcases pathOkN_mk.mp h with ⟨h1, h2⟩
          unfold addGo
          cases hc : findChild cs r with
          | none =>
              rw [pathOkN_mk]
              refine ⟨h1, ?_⟩
              have hih := ih (.mk r "" false (d + 1) none (maskruneslice (r :: rest)) 1 .nil)
                (pr ++ [r]) key meta (by rw [pathOkN_mk]; exact ⟨fun hcon => Bool.noConfusion hcon, rfl⟩)
                (by rw [hk, List.append_assoc]; rfl)
              refine pathOk_setChild cs _ h2 ?_
              rw [addGo_val]
              simp only [Node.val]
              exact hih
          | some c =>
              cases c with
              | mk cv cp ctm cd cmt cmk ctc ccs =>
                  have hcp := pathOk_findChild cs h2 hc
                  have hcv : cv = r := by
                    have := findChild_val cs hc
                    simpa [Node.val] using this
                  subst hcv
                  rcases pathOkN_mk.mp hcp with ⟨hcp1, hcp2⟩
                  rw [pathOkN_mk]
                  refine ⟨h1, ?_⟩
                  have hih := ih (.mk cv cp ctm cd cmt (cmk ||| maskruneslice (cv :: rest)) (ctc + 1) ccs)
                    (pr ++ [cv]) key meta (by rw [pathOkN_mk]; exact ⟨hcp1, hcp2⟩)
                    (by rw [hk, List.append_assoc]; rfl)
                  refine pathOk_setChild cs _ h2 ?_
                  rw [addGo_val]
                  simp only [Node.val]
                  exact hih

theorem termOk_addGo {T : Type} (rs : List Char) :
    ∀ (n : Node T) (key : String) (meta : T),
    termOkN n = true →
    termOkN (addGo n rs key meta) = true ∧ hasTermB (addGo n rs key meta) = true := by
  induction rs with
  | nil =>
      intro n key meta h
      cases n with
      | mk v p tm d mt msk tc cs =>
          rw [termOkN_mk] at h
          unfold addGo
          rw [termOkN_mk, hasTermB_mk]
          constructor
          · exact termOk_setChild cs (.mk nul key true (d + 1) (some meta) 0 0 .nil) h rfl rfl
          · rw [hasTermC_setChild_of cs (.mk nul key true (d + 1) (some meta) 0 0 .nil) rfl]
            simp
  | cons r rest ih =>
      intro n key meta h
      cases n with
      | mk v p tm d mt msk tc cs =>
          rw [termOkN_mk] at h
          unfold addGo
          cases hc : findChild cs r with
          | none =>
              rcases ih (.mk r "" false (d + 1) none (maskruneslice (r :: rest)) 1 .nil)
                key meta rfl with ⟨ht1, ht2⟩
              rw [termOkN_mk, hasTermB_mk]
              constructor
              · exact termOk_setChild cs _ h ht2 ht1
              · rw [hasTermC_setChild_of cs _ ht2]
                simp
          | some c =>
              cases c with
              | mk cv cp ctm cd cmt cmk ctc ccs =>
                  have hct := termOk_findChild cs h hc
                  rw [termOkN_mk] at hct
                  rcases ih (.mk cv cp ctm cd cmt (cmk ||| maskruneslice (r :: rest)) (ctc + 1) ccs)
                    key meta hct.1 with ⟨ht1, ht2⟩
                  rw [termOkN_mk, hasTermB_mk]
                  constructor
                  · exact termOk_setChild cs _ h ht2 ht1
                  · rw [hasTermC_setChild_of cs _ ht2]
                    simp

/-
Shape facts about `removeGo`.
-/

theorem removeGo_fields {T : Type} (rs : List Char) :
    ∀ (drem : List Char) (n : Node T),
    ((removeGo rs n drem).1.val = n.val ∧ (removeGo rs n drem).1.path = n.path) ∧
    ((removeGo rs n drem).1.term = n.term ∧ (removeGo rs n drem).1.depth = n.depth) := by
  intro drem
  induction drem with
  | nil => intro n; exact ⟨⟨rfl, rfl⟩, ⟨rfl, rfl⟩⟩
  | cons r rest ih =>
      intro n
      unfold removeGo
      cases hc : findChild n.children r with
      | none => exact ⟨⟨rfl, rfl⟩, ⟨rfl, rfl⟩⟩
      | some c =>
          rcases hrg : removeGo rs c rest with ⟨c', flag⟩
          cases flag with
          | true => simp only [hrg]; simp
          | false =>
              by_cases hcount : 1 < childCount n.children
              · simp only [hrg]
                rw [if_pos hcount]
                simp
              · simp only [hrg]
                rw [if_neg hcount]
                exact ⟨⟨rfl, rfl⟩, ⟨rfl, rfl⟩⟩

theorem depthOk_removeGo {T : Type} (rs : List Char) :
    ∀ (drem : List Char) (n : Node T) (dd : Nat),
    depthOkN dd n = true → depthOkN dd ((removeGo rs n drem).1) = true := by
  intro drem
  induction drem with
  | nil => intro n dd h; exact h
  | cons r rest ih =>
      intro n dd h
      unfold depthOkN at h
      simp only [Bool.and_eq_true] at h
      unfold removeGo
      cases hc : findChild n.children r with
      | none =>
          unfold depthOkN
          simp only [Bool.and_eq_true]
          exact h
      | some c =>
          rcases hrg : removeGo rs c rest with ⟨c', flag⟩
          cases flag with
          | true =>
              simp only [hrg]
              have hcd := depthOk_findChild n.children h.2 hc
              have hihc := ih c (dd + 1) hcd
              rw [hrg] at hihc
              unfold depthOkN
              simp only [recomputeMask_depth, recomputeMask_children, withChildren_depth,
                withChildren_children, Bool.and_eq_true]
              exact ⟨h.1, depthOk_setChild n.children c' h.2 hihc⟩
          | false =>
              by_cases hcount : 1 < childCount n.children
              · simp only [hrg]
                rw [if_pos hcount]
                unfold depthOkN
                simp only [withChildren_depth, withChildren_children, Bool.and_eq_true]
                exact ⟨h.1, depthOk_eraseChild n.children _ h.2⟩
              · simp only [hrg]
                rw [if_neg hcount]
                unfold depthOkN
                simp only [Bool.and_eq_true]
                exact h

theorem uniq_removeGo {T : Type} (rs : List Char) :
    ∀ (drem : List Char) (n : Node T),
    uniqN n = true → uniqN ((removeGo rs n drem).1) = true := by
  intro drem
  induction drem with
  | nil => intro n h; exact h
  | cons r rest ih =>
      intro n h
      unfold uniqN at h
      unfold removeGo
      cases hc : findChild n.children r with
      | none => exact h
      | some c =>
          rcases hrg : removeGo rs c rest with ⟨c', flag⟩
          cases flag with
          | true =>
              simp only [hrg]
              have hcu := uniq_findChild n.children h hc
              have hihc := ih c hcu
              rw [hrg] at hihc
              unfold uniqN
              simp only [recomputeMask_children, withChildren_children]
              exact uniq_setChild n.children c' h hihc
          | false =>
              by_cases hcount : 1 < childCount n.children
              · simp only [hrg]
                rw [if_pos hcount]
                unfold uniqN
                simp only [withChildren_children]
                exact uniq_eraseChild n.children _ h
              · simp only [hrg]
                rw [if_neg hcount]
                exact h

theorem maskOk_removeGo {T : Type} (rs : List Char) :
    ∀ (drem : List Char) (n : Node T),
    maskOkN n = true → maskOkN ((removeGo rs n drem).1) = true := by
  intro drem
  induction drem with
  | nil => intro n h; exact h
  | cons r rest ih =>
      intro n h
      unfold maskOkN at h
      simp only [Bool.and_eq_true, beq_iff_eq] at h
      unfold removeGo
      cases hc : findChild n.children r with
      | none =>
          unfold maskOkN
          simp only [Bool.and_eq_true, beq_iff_eq]
          exact h
      | some c =>
          rcases hrg : removeGo rs c rest with ⟨c', flag⟩
          cases flag with
          | true =>
              simp only [hrg]
              have hcm := maskOk_findChild n.children h.2 hc
              have hihc := ih c hcm
              rw [hrg] at hihc
              unfold maskOkN
              simp only [recomputeMask_val, recomputeMask_mask, recomputeMask_children,
                withChildren_val, withChildren_children, Bool.and_eq_true, beq_iff_eq]
              exact ⟨msub_refl _, maskOk_setChild n.children c' h.2 hihc⟩
          | false =>
              by_cases hcount : 1 < childCount n.children
              · simp only [hrg]
                rw [if_pos hcount]
                unfold maskOkN
                simp only [withChildren_val, withChildren_mask, withChildren_children,
                  Bool.and_eq_true, beq_iff_eq]
                constructor
                · refine msub_trans ?_ h.1
                  have he := msub_mp (maskUnion_eraseChild n.children (rs.getD n.depth nul))
                  rw [msub_iff]
                  intro i hi
                  simp only [Nat.testBit_or, Bool.or_eq_true] at hi ⊢
                  rcases hi with hi | hi
                  · left; exact hi
                  · right; exact he i hi
                · exact maskOk_eraseChild n.children _ h.2
              · simp only [hrg]
                rw [if_neg hcount]
                unfold maskOkN
                simp only [Bool.and_eq_true, beq_iff_eq]
                exact h

theorem pathOk_removeGo {T : Type} (rs : List Char) :
    ∀ (drem : List Char) (n : Node T) (pr : List Char),
    pathOkN pr n = true → pathOkN pr ((removeGo rs n drem).1) = true := by
  intro drem
  induction drem with
  | nil => intro n pr h; exact h
  | cons r rest ih =>
      intro n pr h
      unfold pathOkN at h
      simp only [Bool.and_eq_true] at h
      unfold removeGo
      cases hc : findChild n.children r with
      | none =>
          unfold pathOkN
          simp only [Bool.and_eq_true]
          exact h
      | some c =>
          rcases hrg : removeGo rs c rest with ⟨c', flag⟩
          cases flag with
          | true =>
              simp only [hrg]
              have hcp := pathOk_findChild n.children h.2 hc
              have hihc := ih c (pr ++ [r]) hcp
              rw [hrg] at hihc
              unfold pathOkN
              simp only [recomputeMask_term, recomputeMask_path, recomputeMask_children,
                withChildren_term, withChildren_path, withChildren_children, Bool.and_eq_true]
              refine ⟨h.1, ?_⟩
              refine pathOk_setChild n.children c' h.2 ?_
              have hval : c'.val = r := by
                have hf := (removeGo_fields rs rest c).1.1
                rw [hrg] at hf
                rw [hf]
                exact findChild_val n.children hc
              rw [hval]
              exact hihc
          | false =>
              by_cases hcount : 1 < childCount n.children
              · simp only [hrg]
                rw [if_pos hcount]
                unfold pathOkN
                simp only [withChildren_term, withChildren_path, withChildren_children,
                  Bool.and_eq_true]
                exact ⟨h.1, pathOk_eraseChild n.children _ h.2⟩
              · simp only [hrg]
                rw [if_neg hcount]
                unfold pathOkN
                simp only [Bool.and_eq_true]
                exact h

theorem termOk_removeGo {T : Type} (rs : List Char) :
    ∀ (drem : List Char) (n : Node T),
    termOkN n = true →
    termOkN ((removeGo rs n drem).1) = true ∧
    ((removeGo rs n drem).2 = true → hasTermB ((removeGo rs n drem).1) = true) := by
  intro drem
  induction drem with
  | nil =>
      intro n h
      refine ⟨h, fun hcon => ?_⟩
      cases hcon
  | cons r rest ih =>
      intro n h
      unfold termOkN at h
      unfold removeGo
      cases hc : findChild n.children r with
      | none =>
          refine ⟨h, fun hcon => ?_⟩
          cases hcon
      | some c =>
          rcases hrg : removeGo rs c rest with ⟨c', flag⟩
          cases flag with
          | true =>
              simp only [hrg]
              have hct := termOk_findChild n.children h hc
              have hihc := ih c hct.1
              rw [hrg] at hihc
              have hctm : hasTermB c' = true := hihc.2 rfl
              constructor
              · unfold termOkN
                simp only [recomputeMask_children, withChildren_children]
                exact termOk_setChild n.children c' h hctm hihc.1
              · intro _
                unfold hasTermB
                simp only [recomputeMask_term, recomputeMask_children,
                  withChildren_term, withChildren_children]
                rw [hasTermC_setChild_of n.children c' hctm]
                simp
          | false =>
              by_cases hcount : 1 < childCount n.children
              · simp only [hrg]
                rw [if_pos hcount]
                constructor
                · unfold termOkN
                  simp only [withChildren_children]
                  exact termOk_eraseChild n.children _ h
                · intro _
                  unfold hasTermB
                  simp only [withChildren_term, withChildren_children]
                  rw [termOk_erase_hasTerm n.children _ h hcount]
                  simp
              · simp only [hrg]
                rw [if_neg hcount]
                refine ⟨h, fun hcon => ?_⟩
                cases hcon

/-
Trie-level invariant preservation.
-/

theorem wfTrie_new (T : Type) : wfTrie (Trie.New T) = true := by
  unfold wfTrie Trie.New emptyRoot
  rw [Bool.and_eq_true, Bool.and_eq_true, Bool.and_eq_true, Bool.and_eq_true]
  refine ⟨⟨⟨⟨rfl, rfl⟩, ?_⟩, rfl⟩, rfl⟩
  rw [maskOkN_mk]
  refine ⟨?_, rfl⟩
  rw [runeBit_nul]
  simp [maskUnion]

theorem wf_add {T : Type} (t : Trie T) (key : String) (meta : T)
    (h : wfTrie t = true) : wfTrie (t.Add key meta) = true := by
  cases t with
  | mk root size =>
      cases root with
      | mk v p tm d mt msk tc cs =>
          unfold wfTrie at h ⊢
          simp only [Bool.and_eq_true] at h ⊢
          obtain ⟨⟨⟨⟨hd, hu⟩, hm⟩, hp⟩, ht⟩ := h
          unfold Trie.Add
          simp only []
          rcases depthOkN_mk.mp hd with ⟨hd1, hd2⟩
          rcases maskOkN_mk.mp hm with ⟨hm1, hm2⟩
          rcases pathOkN_mk.mp hp with ⟨hp1, hp2⟩
          refine ⟨⟨⟨⟨?_, ?_⟩, ?_⟩, ?_⟩, ?_⟩
          · exact depthOk_addGo _ _ 0 key meta (by rw [depthOkN_mk]; exact ⟨hd1, hd2⟩)
          · exact uniq_addGo _ _ key meta (by rw [uniqN_mk] at hu ⊢; exact hu)
          · refine maskOk_addGo _ _ key meta ?_ ?_
            · rw [maskOkN_mk]
              refine ⟨msub_trans hm1 (msub_lor_left _ _), hm2⟩
            · simp only [Node.mask]
              exact msub_lor_right _ _
          · exact pathOk_addGo _ _ [] key meta
              (by rw [pathOkN_mk]; exact ⟨hp1, hp2⟩) rfl
          · exact (termOk_addGo _ _ key meta (by rw [termOkN_mk] at ht ⊢; exact ht)).1

theorem wfTrie_emptyRootTrie {T : Type} (sz : Int) :
    wfTrie (T := T) ⟨emptyRoot, sz⟩ = true := by
  unfold wfTrie emptyRoot
  rw [Bool.and_eq_true, Bool.and_eq_true, Bool.and_eq_true, Bool.and_eq_true]
  refine ⟨⟨⟨⟨rfl, rfl⟩, ?_⟩, rfl⟩, rfl⟩
  rw [maskOkN_mk]
  refine ⟨?_, rfl⟩
  rw [runeBit_nul]
  simp [maskUnion]

theorem wf_remove {T : Type} (t : Trie T) (key : String)
    (h : wfTrie t = true) : wfTrie (t.Remove key) = true := by
  unfold Trie.Remove
  simp only []
  cases hf : findNode t.root key.toList with
  | none => exact h
  | some nd =>
      try simp only []
      cases hrs : key.toList with
      | nil => exact h
      | cons r rest =>
          try simp only []
          cases hc : findChild t.root.children r with
          | none => exact h
          | some c =>
              try simp only []
              rcases hrg : removeGo (r :: rest) c rest with ⟨c', flag⟩
              cases flag with
              | false => exact wfTrie_emptyRootTrie _
              | true =>
                  try simp only []
                  unfold wfTrie at h ⊢
                  simp only [Bool.and_eq_true] at h ⊢
                  obtain ⟨⟨⟨⟨hd, hu⟩, hm⟩, hp⟩, ht⟩ := h
                  unfold depthOkN at hd
                  unfold pathOkN at hp
                  simp only [Bool.and_eq_true] at hd hp
                  have hcval : c.val = r := findChild_val t.root.children hc
                  have hfields := removeGo_fields (r :: rest) rest c
                  rw [hrg] at hfields
                  refine ⟨⟨⟨⟨?_, ?_⟩, ?_⟩, ?_⟩, ?_⟩
                  · unfold depthOkN
                    simp only [recomputeMask_depth, recomputeMask_children,
                      withChildren_depth, withChildren_children, Bool.and_eq_true]
                    refine ⟨hd.1, ?_⟩
                    refine depthOk_setChild t.root.children c' hd.2 ?_
                    have := depthOk_removeGo (r :: rest) rest c 1
                      (depthOk_findChild t.root.children hd.2 hc)
                    rw [hrg] at this
                    exact this
                  · unfold uniqN at hu ⊢
                    simp only [recomputeMask_children, withChildren_children]
                    refine uniq_setChild t.root.children c' hu ?_
                    have := uniq_removeGo (r :: rest) rest c
                      (uniq_findChild t.root.children hu hc)
                    rw [hrg] at this
                    exact this
                  · unfold maskOkN at hm ⊢
                    simp only [Bool.and_eq_true, beq_iff_eq] at hm
                    simp only [recomputeMask_val, recomputeMask_mask, recomputeMask_children,
                      withChildren_val, withChildren_children, Bool.and_eq_true, beq_iff_eq]
                    refine ⟨msub_refl _, ?_⟩
                    refine maskOk_setChild t.root.children c' hm.2 ?_
                    have := maskOk_removeGo (r :: rest) rest c
                      (maskOk_findChild t.root.children hm.2 hc)
                    rw [hrg] at this
                    exact this
                  · unfold pathOkN
                    simp only [recomputeMask_term, recomputeMask_path, recomputeMask_children,
                      withChildren_term, withChildren_path, withChildren_children, Bool.and_eq_true]
                    refine ⟨hp.1, ?_⟩
                    refine pathOk_setChild t.root.children c' hp.2 ?_
                    have := pathOk_removeGo (r :: rest) rest c ([] ++ [r])
                      (pathOk_findChild t.root.children hp.2 hc)
                    rw [hrg] at this
                    rw [hfields.1.1, hcval]
                    exact this
                  · unfold termOkN at ht ⊢
                    simp only [recomputeMask_children, withChildren_children]
                    have hterm := termOk_removeGo (r :: rest) rest c
                      ((termOk_findChild t.root.children ht hc).1)
                    rw [hrg] at hterm
                    exact termOk_setChild t.root.children c' ht (hterm.2 rfl) hterm.1

theorem wf_applyOp {T : Type} (t : Trie T) (op : Op T)
    (h : wfTrie t = true) : wfTrie (applyOp t op) = true := by
  cases op with
  | add key meta => exact wf_add t key meta h
  | remove key => exact wf_remove t key h

theorem wf_foldl {T : Type} (ops : List (Op T)) :
    ∀ (t : Trie T), wfTrie t = true → wfTrie (ops.foldl applyOp t) = true := by
  induction ops with
  | nil => intro t h; exact h
  | cons op rest ih =>
      intro t h
      rw [List.foldl_cons]
      exact ih _ (wf_applyOp t op h)

theorem buildTrie_wf {T : Type} (ops : List (Op T)) :
    wfTrie (buildTrie T ops) = true :=
  wf_foldl ops (Trie.New T) (wfTrie_new T)

/-
Lookup after insertion.
-/

theorem addGo_find {T : Type} (rs : List Char) :
    ∀ (n : Node T) (key : String) (meta : T),
    ∃ x c, findNode (addGo n rs key meta) rs = some x ∧
      findChild x.children nul = some c ∧ c.term = true ∧
      c.meta = some meta ∧ c.path = key ∧ c.val = nul := by
  induction rs with
  | nil =>
      intro n key meta
      cases n with
      | mk v p tm d mt msk tc cs =>
          refine ⟨_, .mk nul key true (d + 1) (some meta) 0 0 .nil, rfl, ?_, rfl, rfl, rfl, rfl⟩
          unfold addGo
          simp only [Node.children]
          exact findChild_setChild_self cs _
  | cons r rest ih =>
      intro n key meta
      cases n with
      | mk v p tm d mt msk tc cs =>
          unfold addGo
          cases hc : findChild cs r with
          | none =>
              rcases ih (.mk r "" false (d + 1) none (maskruneslice (r :: rest)) 1 .nil)
                key meta with ⟨x, c, hfx, hfc, hct, hcm, hcp, hcv⟩
              refine ⟨x, c, ?_, hfc, hct, hcm, hcp, hcv⟩
              unfold findNode
              simp only [Node.children]
              have hval : (addGo (.mk r "" false (d + 1) none (maskruneslice (r :: rest)) 1 .nil)
                  rest key meta).val = r := by
                rw [addGo_val]; rfl
              have := findChild_setChild_self cs
                (addGo (.mk r "" false (d + 1) none (maskruneslice (r :: rest)) 1 .nil) rest key meta)
              rw [hval] at this
              rw [this]
              exact hfx
          | some c0 =>
              cases c0 with
              | mk cv cp ctm cd cmt cmk ctc ccs =>
                  have hcv0 : cv = r := by
                    have := findChild_val cs hc
                    simpa [Node.val] using this
                  subst hcv0
                  rcases ih (.mk cv cp ctm cd cmt (cmk ||| maskruneslice (cv :: rest)) (ctc + 1) ccs)
                    key meta with ⟨x, c, hfx, hfc, hct, hcm, hcp, hcv⟩
                  refine ⟨x, c, ?_, hfc, hct, hcm, hcp, hcv⟩
                  unfold findNode
                  simp only [Node.children]
                  have hval : (addGo (.mk cv cp ctm cd cmt (cmk ||| maskruneslice (cv :: rest)) (ctc + 1) ccs)
                      rest key meta).val = cv := by
                    rw [addGo_val]; rfl
                  have := findChild_setChild_self cs
                    (addGo (.mk cv cp ctm cd cmt (cmk ||| maskruneslice (cv :: rest)) (ctc + 1) ccs) rest key meta)
                  rw [hval] at this
                  rw [this]
                  exact hfx

/-- `Find` immediately after `Add` returns the fresh terminal. -/
theorem find_add {T : Type} (t : Trie T) (key : String) (meta : T) :
    ∃ c, (t.Add key meta).Find key = some c ∧ c.term = true ∧
      c.meta = some meta ∧ c.path = key := by
  cases t with
  | mk root size =>
      cases root with
      | mk v p tm d mt msk tc cs =>
          unfold Trie.Add
          simp only []
          rcases addGo_find key.toList
            (.mk v p tm d mt (msk ||| maskruneslice key.toList) (tc + 1) cs) key meta with
            ⟨x, c, hfx, hfc, hct, hcm, hcp, hcv⟩
          refine ⟨c, ?_, hct, hcm, hcp⟩
          unfold Trie.Find
          simp only [hfx, hfc, hct, if_true]

/-
Collect membership.
-/

theorem collectC_cons {T : Type} (c0 : Node T) (rest : Children T) :
    collectC (.cons c0 rest) = collectN c0 ++ collectC rest := by
  cases c0 with
  | mk cv cp ctm cd cmt cmk ctc ccs =>
      show (if ctm = true then [cp] else []) ++ collectC ccs ++ collectC rest = _
      unfold collectN
      simp only [Node.term, Node.path, Node.children]

theorem self_mem_collectN {T : Type} (n : Node T) (h : n.term = true) :
    n.path ∈ collectN n := by
  unfold collectN
  rw [h]
  simp

theorem mem_collectC_of_findChild {T : Type} (cs : Children T) {r : Char} {c : Node T}
    {s : String} (hc : findChild cs r = some c) (hs : s ∈ collectN c) :
    s ∈ collectC cs := by
  cases cs with
  | nil => cases hc
  | cons n rest =>
      rw [collectC_cons, List.mem_append]
      unfold findChild at hc
      by_cases hv : n.val = r
      · rw [if_pos hv] at hc
        injection hc with hc
        subst hc
        left; exact hs
      · rw [if_neg hv] at hc
        right; exact mem_collectC_of_findChild rest hc hs

theorem collect_subtree {T : Type} (rs : List Char) :
    ∀ (n : Node T) {x : Node T} {s : String},
    findNode n rs = some x → s ∈ collectN x → s ∈ collectN n := by
  induction rs with
  | nil =>
      intro n x s hf hs
      unfold findNode at hf
      injection hf with hf
      subst hf
      exact hs
  | cons r rest ih =>
      intro n x s hf hs
      unfold findNode at hf
      cases hc : findChild n.children r with
      | none => rw [hc] at hf; cases hf
      | some c =>
          rw [hc] at hf
          have := ih c hf hs
          unfold collectN
          rw [List.mem_append]
          right
          exact mem_collectC_of_findChild n.children hc this

theorem findChild_some_valMem {T : Type} (cs : Children T) {r : Char} {c : Node T}
    (h : findChild cs r = some c) : valMemB r cs = true := by
  cases cs with
  | nil => cases h
  | cons n rest =>
      unfold findChild at h
      unfold valMemB
      by_cases hv : n.val = r
      · rw [beq_iff_eq.mpr hv]; simp
      · rw [if_neg hv] at h
        rw [findChild_some_valMem rest h]
        simp

theorem mem_collect_of_term {T : Type} (x : Node T) {ext : List Char}
    {par c : Node T} (hf : findNode x ext = some par)
    (hc : findChild par.children nul = some c) (ht : c.term = true) :
    c.path ∈ collectN x := by
  refine collect_subtree ext x hf ?_
  unfold collectN
  rw [List.mem_append]
  right
  exact mem_collectC_of_findChild par.children hc (self_mem_collectN c ht)

/-
Every collected key names a terminal node of the subtree, whose rune path
extends the subtree's own path (path-field soundness of `collect`).
-/

mutual

theorem collect_soundN {T : Type} (x : Node T) (pr : List Char) (s : String)
    (hp : pathOkN pr x = true) (hu : uniqN x = true) (hs : s ∈ collectN x) :
    ∃ ext c, findNode x ext = some c ∧ c.term = true ∧
      pr ++ ext = s.toList ++ [nul] := by
  cases x with
  | mk v p tm d mt msk tc cs =>
      rcases pathOkN_mk.mp hp with ⟨hp1, hp2⟩
      rw [uniqN_mk] at hu
      unfold collectN at hs
      simp only [Node.term, Node.path, Node.children] at hs
      rw [List.mem_append] at hs
      rcases hs with hs | hs
      · by_cases htm : tm = true
        · rw [if_pos htm] at hs
          rw [List.mem_singleton] at hs
          refine ⟨[], .mk v p tm d mt msk tc cs, rfl, htm, ?_⟩
          rw [List.append_nil, hs]
          exact (hp1 htm).symm
        · rw [if_neg htm] at hs
          cases hs
      · rcases collect_soundC cs pr s hp2 hu hs with ⟨r, c0, hfc, ext, c, hfind, hterm, heq⟩
        refine ⟨r :: ext, c, ?_, hterm, ?_⟩
        · unfold findNode
          simp only [Node.children]
          rw [hfc]
          exact hfind
        · rw [← heq]
          simp

theorem collect_soundC {T : Type} (cs : Children T) (pr : List Char) (s : String)
    (hp : pathOkC pr cs = true) (hu : uniqC cs = true) (hs : s ∈ collectC cs) :
    ∃ r c0, findChild cs r = some c0 ∧ ∃ ext c, findNode c0 ext = some c ∧
      c.term = true ∧ (pr ++ [r]) ++ ext = s.toList ++ [nul] := by
  cases cs with
  | nil => cases hs
  | cons c0 rest =>
      rw [collectC_cons, List.mem_append] at hs
      cases c0 with
      | mk cv cp ctm cd cmt cmk ctc ccs =>
          unfold pathOkC at hp
          unfold uniqC at hu
          simp only [Bool.and_eq_true] at hp hu
          rcases hs with hs | hs
          · rcases collect_soundN (.mk cv cp ctm cd cmt cmk ctc ccs) (pr ++ [cv]) s
              (by rw [pathOkN_mk]
                  refine ⟨fun htm => ?_, hp.1.2⟩
                  have := hp.1.1
                  rw [htm] at this
                  simp only [Bool.not_true, Bool.false_or] at this
                  exact beq_iff_eq.mp this)
              (by rw [uniqN_mk]; exact hu.1.2) hs with ⟨ext, c, hfind, hterm, heq⟩
            refine ⟨cv, .mk cv cp ctm cd cmt cmk ctc ccs, ?_, ext, c, hfind, hterm, heq⟩
            unfold findChild
            simp only [Node.val]
            simp
          · rcases collect_soundC rest pr s hp.2 hu.2 hs with ⟨r, c0', hfc', rest'⟩
            refine ⟨r, c0', ?_, rest'⟩
            unfold findChild
            simp only [Node.val]
            have hne : cv ≠ r := by
              intro hcon
              subst hcon
              have := findChild_some_valMem rest hfc'
              have hnm := hu.1.1
              rw [this] at hnm
              cases hnm
            rw [if_neg hne]
            exact hfc'

end

/-
After a successful detachment, the removed key's path is gone.
-/

theorem removeGo_find {T : Type} (rs : List Char) :
    ∀ (drem : List Char) (n : Node T) (pr : List Char) {c' : Node T},
    depthOkN pr.length n = true → uniqN n = true →
    removeGo rs n drem = (c', true) → rs = pr ++ drem →
    findNode c' drem = none := by
  intro drem
  induction drem with
  | nil =>
      intro n pr c' _ _ hrg _
      unfold removeGo at hrg
      simp at hrg
  | cons r2 rest2 ih =>
      intro n pr c' hd hu hrg hrs
      unfold removeGo at hrg
      cases hc : findChild n.children r2 with
      | none =>
          rw [hc] at hrg
          simp at hrg
      | some cc =>
          rw [hc] at hrg
          rcases hsub : removeGo rs cc rest2 with ⟨cc', flag⟩
          simp only [hsub] at hrg
          cases flag with
          | false =>
              by_cases hcount : 1 < childCount n.children
              · rw [if_pos hcount] at hrg
                injection hrg with h1 _
                subst h1
                unfold depthOkN at hd
                simp only [Bool.and_eq_true, beq_iff_eq] at hd
                have hget : rs.getD n.depth nul = r2 := by
                  rw [hrs, hd.1]
                  exact getD_append_cons pr r2 rest2 nul
                unfold findNode
                simp only [withChildren_children]
                rw [hget]
                rw [eraseChild_findChild_none n.children hu]
              · rw [if_neg hcount] at hrg
                simp at hrg
          | true =>
              injection hrg with h1 _
              subst h1
              unfold depthOkN at hd
              simp only [Bool.and_eq_true, beq_iff_eq] at hd
              have hccval : cc'.val = r2 := by
                have hf := (removeGo_fields rs rest2 cc).1.1
                rw [hsub] at hf
                rw [hf]
                exact findChild_val n.children hc
              unfold findNode
              simp only [recomputeMask_children, withChildren_children]
              have hself := findChild_setChild_self n.children cc'
              rw [hccval] at hself
              rw [hself]
              refine ih cc (pr ++ [r2]) ?_ ?_ hsub ?_
              · have := depthOk_findChild n.children hd.2 hc
                simpa using this
              · exact uniq_findChild n.children hu hc
              · rw [hrs, List.append_assoc]
                rfl

theorem string_toList_nil {s : String} (h : s.toList = []) : s = "" := by
  cases s with
  | mk data =>
      simp only [String.toList] at h
      rw [h]

/-- `Find` after `Remove` of a nonempty key fails, on any well-formed trie. -/
theorem find_remove {T : Type} (t : Trie T) (key : String)
    (hw : wfTrie t = true) (hk : key ≠ "") : (t.Remove key).Find key = none := by
  unfold Trie.Remove
  simp only []
  cases hf : findNode t.root key.toList with
  | none =>
      unfold Trie.Find
      rw [hf]
  | some nd =>
      try simp only []
      cases hrs : key.toList with
      | nil => exact absurd (string_toList_nil hrs) hk
      | cons r rest =>
          try simp only []
          cases hc : findChild t.root.children r with
          | none =>
              rw [hrs] at hf
              unfold findNode at hf
              rw [hc] at hf
              cases hf
          | some c =>
              try simp only []
              rcases hrg : removeGo (r :: rest) c rest with ⟨c', flag⟩
              cases flag with
              | false =>
                  unfold Trie.Find
                  simp only [hrs]
                  unfold findNode
                  simp only [emptyRoot, Node.children, findChild]
              | true =>
                  unfold wfTrie at hw
                  simp only [Bool.and_eq_true] at hw
                  obtain ⟨⟨⟨⟨hd, hu⟩, _⟩, _⟩, _⟩ := hw
                  unfold depthOkN at hd
                  simp only [Bool.and_eq_true, beq_iff_eq] at hd
                  have hcval : c.val = r := findChild_val t.root.children hc
                  have hcdval : c'.val = r := by
                    have hfld := (removeGo_fields (r :: rest) rest c).1.1
                    rw [hrg] at hfld
                    rw [hfld, hcval]
                  unfold Trie.Find
                  simp only [hrs]
                  unfold findNode
                  simp only [recomputeMask_children, withChildren_children]
                  have hself := findChild_setChild_self t.root.children c'
                  rw [hcdval] at hself
                  rw [hself]
                  have hnone : findNode c' rest = none := by
                    refine removeGo_find (r :: rest) rest c [r] ?_ ?_ hrg rfl
                    · have := depthOk_findChild t.root.children hd.2 hc
                      simpa using this
                    · exact uniq_findChild t.root.children hu hc
                  simp only [hnone]

theorem add_size {T : Type} (t : Trie T) (key : String) (meta : T) :
    (t.Add key meta).size = t.size + 1 := by
  cases t with
  | mk root size =>
      cases root with
      | mk v p tm d mt msk tc cs => rfl

theorem maskOk_descend {T : Type} (rs : List Char) :
    ∀ (n : Node T) {x : Node T}, maskOkN n = true →
    findNode n rs = some x → maskOkN x = true := by
  induction rs with
  | nil =>
      intro n x hm hf
      injection hf with hf
      subst hf
      exact hm
  | cons r rest ih =>
      intro n x hm hf
      unfold findNode at hf
      cases hc : findChild n.children r with
      | none => rw [hc] at hf; cases hf
      | some c =>
          rw [hc] at hf
          unfold maskOkN at hm
          simp only [Bool.and_eq_true] at hm
          exact ih c (maskOk_findChild n.children hm.2 hc) hf

theorem maskOkN_emptyRoot {T : Type} : maskOkN (emptyRoot (T := T)) = true := by
  unfold emptyRoot
  rw [maskOkN_mk]
  refine ⟨?_, rfl⟩
  rw [runeBit_nul]
  simp [maskUnion]

/-- `Remove` preserves the containment form of the mask invariant. -/
theorem maskOk_remove {T : Type} (t : Trie T) (key : String)
    (h : maskOkN t.root = true) : maskOkN (t.Remove key).root = true := by
  unfold Trie.Remove
  simp only []
  cases hf : findNode t.root key.toList with
  | none => exact h
  | some nd =>
      try simp only []
      cases hrs : key.toList with
      | nil => exact h
      | cons r rest =>
          try simp only []
          cases hc : findChild t.root.children r with
          | none => exact h
          | some c =>
              try simp only []
              rcases hrg : removeGo (r :: rest) c rest with ⟨c', flag⟩
              cases flag with
              | false => exact maskOkN_emptyRoot
              | true =>
                  try simp only []
                  unfold maskOkN at h
                  simp only [Bool.and_eq_true, beq_iff_eq] at h
                  unfold maskOkN
                  simp only [recomputeMask_val, recomputeMask_mask, recomputeMask_children,
                    withChildren_val, withChildren_children, Bool.and_eq_true, beq_iff_eq]
                  refine ⟨msub_refl _, ?_⟩
                  refine maskOk_setChild t.root.children c' h.2 ?_
                  have := maskOk_removeGo (r :: rest) rest c
                    (maskOk_findChild t.root.children h.2 hc)
                  rw [hrg] at this
                  exact this

/-
Claim theorems.
-/

/-- C1, counterexample: the round-trip claim fails for the empty key. After
`Add("", 7)` then `Remove("")`, `Find("")` still reports the key as found
(the upward walk starts at the found node's parent, and the root has none,
so the terminal sentinel is never detached), even though the remove call
decremented `size`. -/
theorem C1_counterexample :
    ((((Trie.New Nat).Add "" 7).Remove "").Find "").isSome = true ∧
    (((Trie.New Nat).Add "" 7).Remove "").size = 0 := by
  constructor
  · rfl
  · rfl

/-- C1 (amended): for every trie, `Find(k)` immediately after `Add(k, p)`
returns the terminal carrying payload `p` with found = true; and for every
well-formed trie and every NONEMPTY key `k`, `Find(k)` after `Remove(k)`
returns found = false. (The original claim fails for the empty key, see the
counterexample; intervening operations on other keys can also overwrite or
collaterally delete an entry, so the claim is stated for the operations
adjacent to the lookup.) -/
theorem C1_round_trip {T : Type} (t : Trie T) (key : String) (meta : T) :
    (∃ c, (t.Add key meta).Find key = some c ∧ c.term = true ∧ c.meta = some meta) ∧
    (wfTrie t = true → key ≠ "" → (t.Remove key).Find key = none) := by
  constructor
  · rcases find_add t key meta with ⟨c, h1, h2, h3, _⟩
    exact ⟨c, h1, h2, h3⟩
  · intro hw hk
    exact find_remove t key hw hk

/-- Witness for C1: instantiated on the empty trie and the key "a". -/
theorem C1_round_trip_witness :
    (∃ c, ((Trie.New Nat).Add "a" 5).Find "a" = some c ∧ c.term = true ∧ c.meta = some 5) ∧
    ((Trie.New Nat).Remove "a").Find "a" = none := by
  have h := C1_round_trip (Trie.New Nat) "a" 5
  exact ⟨h.1, h.2 (by rfl) (by decide)⟩

/-- C2, counterexample: removing a key that is NOT stored is not always a
no-op. With only "abc" stored, "ab" is not a stored key (`Find` fails), yet
`Remove("ab")` decrements `size` from 1 to 0 and empties the whole trie,
because `findNode` locates the interior path node for "ab" and the upward
walk reaches the root and replaces it. -/
theorem C2_counterexample :
    ((((Trie.New Nat).Add "abc" 1).Find "ab").isSome = false) ∧
    (((Trie.New Nat).Add "abc" 1).Keys = ["abc"]) ∧
    ((((Trie.New Nat).Add "abc" 1).Remove "ab").size = 0 ∧
      ((Trie.New Nat).Add "abc" 1).size = 1) ∧
    ((((Trie.New Nat).Add "abc" 1).Remove "ab").Keys = []) := by
  refine ⟨rfl, rfl, ⟨rfl, rfl⟩, rfl⟩

/-- C2 (amended): `Remove(key)` is a no-op — the trie, its size and hence
`Keys()` are unchanged — exactly when the exact descent fails, i.e. when no
node sits at `key`'s rune path. (A key that is absent as a key but is a
path prefix of stored keys IS found by the descent, so removing it
decrements the size counter and restructures the tree, see the
counterexample.) -/
theorem C2_remove_absent_noop {T : Type} (t : Trie T) (key : String)
    (h : findNode t.root key.toList = none) : t.Remove key = t := by
  unfold Trie.Remove
  simp only []
  rw [h]

/-- Witness for C2: removing "a" from the empty trie is a no-op. -/
theorem C2_remove_absent_noop_witness :
    (Trie.New Nat).Remove "a" = Trie.New Nat :=
  C2_remove_absent_noop (Trie.New Nat) "a" rfl

/-- C5, counterexample: after a removal the exact mask equation does NOT
hold at every non-root node. Store "ab" and "ac" (the equation holds
everywhere), then remove "ab": `removeChild` detaches the 'b' child of the
'a' node but recomputes masks only from the 'a' node's parent upward, so
the 'a' node keeps the stale bit of 'b' in its mask and its mask is no
longer the union of its own bit and its children's masks. -/
theorem C5_counterexample :
    maskExactC (((Trie.New Nat).Add "ab" 1).Add "ac" 2).root.children = true ∧
    maskExactC (((((Trie.New Nat).Add "ab" 1).Add "ac" 2).Remove "ab").root.children) = false := by
  constructor
  · rfl
  · rfl

/-- C5 (amended): what `Remove` actually re-establishes is only the
containment direction of the invariant: if before the removal every node's
`subtreeMask` contained the union of its own rune bit and its children's
masks, the same containment holds after the removal. Equality is broken at
the detachment node itself, whose mask is never recomputed (see the
counterexample); the strict ancestors of the detachment node are recomputed
exactly. -/
theorem C5_mask_after_remove {T : Type} (t : Trie T) (key : String)
    (h : maskOkN t.root = true) : maskOkN (t.Remove key).root = true :=
  maskOk_remove t key h

/-- Witness for C5: the containment invariant survives removing "ab" from
the trie storing "ab" and "ac". -/
theorem C5_mask_after_remove_witness :
    maskOkN (((((Trie.New Nat).Add "ab" 1).Add "ac" 2).Remove "ab")).root = true :=
  C5_mask_after_remove (((Trie.New Nat).Add "ab" 1).Add "ac" 2) "ab" (by rfl)

/-- C6 (confirmed): the bitmask summary never produces a false negative.
After any sequence of `Add`/`Remove` operations, for every stored key and
every split point `d` of that key, the node reached by the key's first `d`
runes exists and its mask contains every bit of the rune mask of the key's
remaining suffix, so the fuzzy-search pruning test `(mask & m) == m` cannot
discard the subtree holding that key. -/
theorem C6_no_false_negative {T : Type} (ops : List (Op T)) (key : String) (d : Nat)
    (hs : ((buildTrie T ops).Find key).isSome = true) :
    ∃ nd, findNode (buildTrie T ops).root (key.toList.take d) = some nd ∧
      nd.mask &&& maskruneslice (key.toList.drop d) = maskruneslice (key.toList.drop d) := by
  have hw := buildTrie_wf (T := T) ops
  unfold wfTrie at hw
  simp only [Bool.and_eq_true] at hw
  have hm : maskOkN (buildTrie T ops).root = true := hw.1.1.2
  unfold Trie.Find at hs
  cases hf : findNode (buildTrie T ops).root key.toList with
  | none => rw [hf] at hs; cases hs
  | some x =>
      have hsplit := findNode_append (key.toList.take d) (key.toList.drop d)
        (buildTrie T ops).root
      rw [List.take_append_drop] at hsplit
      rw [hf] at hsplit
      cases hnd : findNode (buildTrie T ops).root (key.toList.take d) with
      | none => rw [hnd] at hsplit; cases hsplit
      | some nd =>
          rw [hnd] at hsplit
          refine ⟨nd, rfl, ?_⟩
          have hmnd : maskOkN nd = true := maskOk_descend _ _ hm hnd
          have := maskOk_chain (key.toList.drop d) nd hmnd hsplit.symm
          exact land_eq_iff_msub.mpr this

/-- Witness for C6: one Add of "ab", split after the first rune. -/
theorem C6_no_false_negative_witness :
    ∃ nd, findNode (buildTrie Nat [Op.add "ab" 1]).root ("ab".toList.take 1) = some nd ∧
      nd.mask &&& maskruneslice ("ab".toList.drop 1) = maskruneslice ("ab".toList.drop 1) :=
  C6_no_false_negative [Op.add "ab" 1] "ab" 1 (by rfl)

/-- C9 (confirmed): re-adding an already stored key overwrites the terminal
payload — after `Add(k, p1)` then `Add(k, p2)`, `Find(k)` returns the
terminal with payload `p2` and found = true — while the size counter is
incremented by every `Add` call regardless of whether the key was already
present. -/
theorem C9_duplicate_add {T : Type} (t : Trie T) (key : String) (p1 p2 : T) :
    (∃ c, ((t.Add key p1).Add key p2).Find key = some c ∧ c.term = true ∧
      c.meta = some p2) ∧
    (t.Add key p1).size = t.size + 1 ∧
    ((t.Add key p1).Add key p2).size = t.size + 2 := by
  refine ⟨?_, add_size t key p1, ?_⟩
  · rcases find_add (t.Add key p1) key p2 with ⟨c, h1, h2, h3, _⟩
    exact ⟨c, h1, h2, h3⟩
  · rw [add_size, add_size]
    omega

/-
Descent closure of the remaining invariants, and `Find` decomposition.
-/

theorem pathOk_descend {T : Type} (rs : List Char) :
    ∀ (n : Node T) {x : Node T} (pr : List Char), pathOkN pr n = true →
    findNode n rs = some x → pathOkN (pr ++ rs) x = true := by
  induction rs with
  | nil =>
      intro n x pr hp hf
      injection hf with hf
      subst hf
      rw [List.append_nil]
      exact hp
  | cons r rest ih =>
      intro n x pr hp hf
      unfold findNode at hf
      cases hc : findChild n.children r with
      | none => rw [hc] at hf; cases hf
      | some c =>
          rw [hc] at hf
          unfold pathOkN at hp
          simp only [Bool.and_eq_true] at hp
          have := ih c (pr ++ [r]) (pathOk_findChild n.children hp.2 hc) hf
          rw [List.append_assoc] at this
          exact this

theorem uniq_descend {T : Type} (rs : List Char) :
    ∀ (n : Node T) {x : Node T}, uniqN n = true →
    findNode n rs = some x → uniqN x = true := by
  induction rs with
  | nil =>
      intro n x hu hf
      injection hf with hf
      subst hf
      exact hu
  | cons r rest ih =>
      intro n x hu hf
      unfold findNode at hf
      cases hc : findChild n.children r with
      | none => rw [hc] at hf; cases hf
      | some c =>
          rw [hc] at hf
          exact ih c (uniq_findChild n.children hu hc) hf

theorem termOk_descend {T : Type} (rs : List Char) :
    ∀ (n : Node T) {x : Node T}, termOkN n = true →
    findNode n rs = some x →
    termOkN x = true ∧ (rs ≠ [] → hasTermB x = true) := by
  induction rs with
  | nil =>
      intro n x ht hf
      injection hf with hf
      subst hf
      exact ⟨ht, fun hcon => absurd rfl hcon⟩
  | cons r rest ih =>
      intro n x ht hf
      unfold findNode at hf
      cases hc : findChild n.children r with
      | none => rw [hc] at hf; cases hf
      | some c =>
          rw [hc] at hf
          have hcc := termOk_findChild n.children ht hc
          cases rest with
          | nil =>
              have hfc : findNode c [] = some x := hf
              unfold findNode at hfc
              injection hfc with hfc
              subst hfc
              exact ⟨hcc.1, fun _ => hcc.2⟩
          | cons r2 rest2 =>
              have := ih c hcc.1 hf
              exact ⟨this.1, fun _ => this.2 (by simp)⟩

theorem find_eq {T : Type} (t : Trie T) (key : String) :
    t.Find key =
      match findNode t.root key.toList with
      | none => none
      | some nd =>
          match findChild nd.children nul with
          | none => none
          | some c => if c.term = true then some c else none := rfl

theorem find_decompose {T : Type} (t : Trie T) (key : String)
    (h : (t.Find key).isSome = true) :
    ∃ par c, findNode t.root key.toList = some par ∧
      findChild par.children nul = some c ∧ c.term = true ∧
      t.Find key = some c := by
  rw [find_eq] at h
  cases hf : findNode t.root key.toList with
  | none => rw [hf] at h; cases h
  | some par =>
      rw [hf] at h
      try simp only [] at h
      cases hc : findChild par.children nul with
      | none => rw [hc] at h; cases h
      | some c =>
          rw [hc] at h
          try simp only [] at h
          cases htm : c.term with
          | false => rw [htm] at h; simp at h
          | true =>
              refine ⟨par, c, rfl, hc, htm, ?_⟩
              rw [find_eq, hf]
              try simp only []
              rw [hc]
              try simp only []
              rw [htm]
              simp

theorem find_of_terminal {T : Type} (t : Trie T) (key : String) {par c : Node T}
    (hf : findNode t.root key.toList = some par)
    (hc : findChild par.children nul = some c) (htm : c.term = true) :
    t.Find key = some c := by
  rw [find_eq, hf]
  try simp only []
  rw [hc]
  try simp only []
  rw [htm]
  simp

/-- On a well-formed trie a stored key's terminal carries the key itself in
its `path` field. -/
theorem path_field_of_stored {T : Type} (t : Trie T) (key : String) {par c : Node T}
    (hw : wfTrie t = true)
    (hf : findNode t.root key.toList = some par)
    (hc : findChild par.children nul = some c) (htm : c.term = true) :
    c.path = key := by
  unfold wfTrie at hw
  simp only [Bool.and_eq_true] at hw
  have hpar : pathOkN ([] ++ key.toList) par = true :=
    pathOk_descend key.toList t.root [] hw.1.2 hf
  unfold pathOkN at hpar
  simp only [Bool.and_eq_true] at hpar
  have hcp := pathOk_findChild par.children hpar.2 hc
  cases c with
  | mk cv cp ctm cd cmt cmk ctc ccs =>
      rcases pathOkN_mk.mp hcp with ⟨hcp1, _⟩
      simp only [Node.term] at htm
      have := hcp1 htm
      simp only [Node.path] at this ⊢
      rw [List.nil_append] at this
      have hlist : cp.toList = key.toList := by
        have := List.append_inj' this rfl
        exact this.1
      cases cp with
      | mk d1 =>
          cases key with
          | mk d2 =>
              simp only [String.toList] at hlist
              rw [hlist]

/-
A nonempty subtree yields at least one collected key.
-/

mutual

theorem collect_of_hasTermN {T : Type} (n : Node T) (h : hasTermB n = true) :
    ∃ s, s ∈ collectN n := by
  cases n with
  | mk v p tm d mt msk tc cs =>
      rw [hasTermB_mk] at h
      rcases Bool.or_eq_true_iff.mp h with h | h
      · exact ⟨p, self_mem_collectN _ (by simp [Node.term, h])⟩
      · rcases collect_of_hasTermC cs h with ⟨s, hs⟩
        refine ⟨s, ?_⟩
        unfold collectN
        rw [List.mem_append]
        right
        exact hs

theorem collect_of_hasTermC {T : Type} (cs : Children T) (h : hasTermC cs = true) :
    ∃ s, s ∈ collectC cs := by
  cases cs with
  | nil => cases h
  | cons c0 rest =>
      cases c0 with
      | mk cv cp ctm cd cmt cmk ctc ccs =>
          unfold hasTermC at h
          rcases Bool.or_eq_true_iff.mp h with h | h
          · rcases collect_of_hasTermN (.mk cv cp ctm cd cmt cmk ctc ccs)
              (by rw [hasTermB_mk]; exact h) with ⟨s, hs⟩
            refine ⟨s, ?_⟩
            rw [collectC_cons, List.mem_append]
            left
            exact hs
          · rcases collect_of_hasTermC rest h with ⟨s, hs⟩
            refine ⟨s, ?_⟩
            rw [collectC_cons, List.mem_append]
            right
            exact hs

end

/-- Every key collected below the node at rune path `q` (with `q` free of
the nul rune) is a stored key extending `q`. -/
theorem stored_of_collect {T : Type} (t : Trie T) (q : List Char) {nd : Node T}
    (hw : wfTrie t = true) (hf : findNode t.root q = some nd)
    (hnul : nul ∉ q) {s : String} (hs : s ∈ collectN nd) :
    (t.Find s).isSome = true ∧ ∃ rm, q ++ rm = s.toList := by
  unfold wfTrie at hw
  simp only [Bool.and_eq_true] at hw
  have hpath : pathOkN ([] ++ q) nd = true :=
    pathOk_descend q t.root [] hw.1.2 hf
  rw [List.nil_append] at hpath
  have huniq : uniqN nd = true := uniq_descend q t.root hw.1.1.1.2 hf
  rcases collect_soundN nd q s hpath huniq hs with ⟨ext, c, hfind, hterm, heq⟩
  have hwholepath : findNode t.root (q ++ ext) = some c := by
    have := findNode_append q ext t.root
    rw [hf] at this
    rw [this]
    exact hfind
  rw [heq] at hwholepath
  have hsplit := findNode_append s.toList [nul] t.root
  rw [hwholepath] at hsplit
  cases hpar : findNode t.root s.toList with
  | none => rw [hpar] at hsplit; cases hsplit
  | some par =>
      rw [hpar] at hsplit
      unfold findNode at hsplit
      cases hcc : findChild par.children nul with
      | none => rw [hcc] at hsplit; cases hsplit
      | some c2 =>
          rw [hcc] at hsplit
          unfold findNode at hsplit
          injection hsplit with hsplit
          subst hsplit
          constructor
          · rw [find_of_terminal t s hpar hcc hterm]
            rfl
          · rcases List.eq_nil_or_concat ext with hext | ⟨ext', last, hext⟩
            · subst hext
              rw [List.append_nil] at heq
              exfalso
              apply hnul
              rw [heq]
              exact List.mem_append_right _ (by simp)
            · subst hext
              rw [List.concat_eq_append, ← List.append_assoc] at heq
              have := List.append_inj' heq rfl
              exact ⟨ext', this.1⟩

/-- Every stored key extending `q` is collected below the node at `q`. -/
theorem stored_mem_collect {T : Type} (t : Trie T) (q rm : List Char) (key : String)
    {nd : Node T} (hw : wfTrie t = true)
    (hk : (t.Find key).isSome = true) (hq : q ++ rm = key.toList)
    (hf : findNode t.root q = some nd) :
    key ∈ collectN nd := by
  rcases find_decompose t key hk with ⟨par, c, hpar, hcc, hterm, _⟩
  have hpathfield := path_field_of_stored t key hw hpar hcc hterm
  have hsub : findNode nd rm = some par := by
    have := findNode_append q rm t.root
    rw [hq, hpar, hf] at this
    exact this.symm
  have := mem_collect_of_term nd hsub hcc hterm
  rw [hpathfield] at this
  exact this

/-
Removal never enlarges the collected key set.
-/

theorem mem_collectC_erase {T : Type} (cs : Children T) (r : Char) {s : String}
    (h : s ∈ collectC (eraseChild cs r)) : s ∈ collectC cs := by
  cases cs with
  | nil => cases h
  | cons n rest =>
      unfold eraseChild at h
      rw [collectC_cons, List.mem_append]
      by_cases hv : n.val = r
      · rw [if_pos hv] at h
        right; exact h
      · rw [if_neg hv] at h
        rw [collectC_cons, List.mem_append] at h
        rcases h with h | h
        · left; exact h
        · right; exact mem_collectC_erase rest r h

theorem mem_collectC_setChild {T : Type} (cs : Children T) (c : Node T) {s : String}
    (h : s ∈ collectC (setChild cs c)) : s ∈ collectC cs ∨ s ∈ collectN c := by
  cases cs with
  | nil =>
      unfold setChild at h
      rw [collectC_cons, List.mem_append] at h
      rcases h with h | h
      · right; exact h
      · cases h
  | cons n rest =>
      unfold setChild at h
      by_cases hv : n.val = c.val
      · rw [if_pos hv] at h
        rw [collectC_cons, List.mem_append] at h
        rcases h with h | h
        · right; exact h
        · left
          rw [collectC_cons, List.mem_append]
          right; exact h
      · rw [if_neg hv] at h
        rw [collectC_cons, List.mem_append] at h
        rcases h with h | h
        · left
          rw [collectC_cons, List.mem_append]
          left; exact h
        · rcases mem_collectC_setChild rest c h with h | h
          · left
            rw [collectC_cons, List.mem_append]
            right; exact h
          · right; exact h

theorem collectN_withChildren_mem {T : Type} (n : Node T) (cs : Children T) {s : String}
    (h : s ∈ collectN (n.withChildren cs)) :
    (n.term = true ∧ s = n.path) ∨ s ∈ collectC cs := by
  unfold collectN at h
  simp only [withChildren_term, withChildren_path, withChildren_children] at h
  rw [List.mem_append] at h
  rcases h with h | h
  · left
    by_cases htm : n.term = true
    · rw [if_pos htm] at h
      rw [List.mem_singleton] at h
      exact ⟨htm, h⟩
    · rw [if_neg htm] at h
      cases h
  · right; exact h

theorem collectN_recomputeMask {T : Type} (n : Node T) :
    collectN (recomputeMask n) = collectN n := by
  cases n with
  | mk v p tm d mt msk tc cs => rfl

theorem removeGo_collect_sub {T : Type} (rs : List Char) :
    ∀ (drem : List Char) (n : Node T) {s : String},
    s ∈ collectN ((removeGo rs n drem).1) → s ∈ collectN n := by
  intro drem
  induction drem with
  | nil => intro n s h; exact h
  | cons r rest ih =>
      intro n s h
      unfold removeGo at h
      cases hc : findChild n.children r with
      | none => rw [hc] at h; exact h
      | some c =>
          rw [hc] at h
          rcases hrg : removeGo rs c rest with ⟨c', flag⟩
          simp only [hrg] at h
          cases flag with
          | true =>
              simp only [] at h
              rw [collectN_recomputeMask] at h
              rcases collectN_withChildren_mem n _ h with ⟨htm, hp⟩ | h
              · rw [hp]
                exact self_mem_collectN n htm
              · rcases mem_collectC_setChild n.children c' h with h | h
                · unfold collectN
                  rw [List.mem_append]
                  right; exact h
                · have hsub : s ∈ collectN c := by
                    have := ih c (s := s)
                    rw [hrg] at this
                    exact this h
                  unfold collectN
                  rw [List.mem_append]
                  right
                  exact mem_collectC_of_findChild n.children hc hsub
          | false =>
              by_cases hcount : 1 < childCount n.children
              · rw [if_pos hcount] at h
                simp only [] at h
                rcases collectN_withChildren_mem n _ h with ⟨htm, hp⟩ | h
                · rw [hp]
                  exact self_mem_collectN n htm
                · unfold collectN
                  rw [List.mem_append]
                  right
                  exact mem_collectC_erase n.children _ h
              · rw [if_neg hcount] at h
                exact h

/-- Whatever `Remove` leaves enumerable was enumerable before. -/
theorem remove_collect_sub {T : Type} (t : Trie T) (key : String) {s : String}
    (h : s ∈ collectN (t.Remove key).root) : s ∈ collectN t.root := by
  unfold Trie.Remove at h
  simp only [] at h
  revert h
  cases hf : findNode t.root key.toList with
  | none => intro h; exact h
  | some nd =>
      try simp only []
      cases hrs : key.toList with
      | nil => intro h; exact h
      | cons r rest =>
          try simp only []
          cases hc : findChild t.root.children r with
          | none => intro h; exact h
          | some c =>
              try simp only []
              rcases hrg : removeGo (r :: rest) c rest with ⟨c', flag⟩
              cases flag with
              | false =>
                  intro h
                  have hcol : s ∈ collectN (emptyRoot (T := T)) := h
                  unfold emptyRoot collectN at hcol
                  simp only [Node.term, Node.path, Node.children] at hcol
                  simp [collectC] at hcol
              | true =>
                  intro h
                  have h2 : s ∈ collectN (recomputeMask
                      (t.root.withChildren (setChild t.root.children c'))) := h
                  rw [collectN_recomputeMask] at h2
                  rcases collectN_withChildren_mem t.root _ h2 with ⟨htm, hp⟩ | h2
                  · rw [hp]
                    exact self_mem_collectN t.root htm
                  · rcases mem_collectC_setChild t.root.children c' h2 with h2 | h2
                    · unfold collectN
                      rw [List.mem_append]
                      right; exact h2
                    · have hsub : s ∈ collectN c := by
                        have := removeGo_collect_sub (r :: rest) rest c (s := s)
                        rw [hrg] at this
                        exact this h2
                      unfold collectN
                      rw [List.mem_append]
                      right
                      exact mem_collectC_of_findChild t.root.children hc hsub

theorem prefixSearch_empty_eq {T : Type} (t : Trie T) :
    t.PrefixSearch "" = collectN t.root := rfl

/-- C4, counterexample: removing a stored key can delete other keys. With
"ab" and "cd" stored, removing "ab" walks up from the 'b' node; the 'a'
node has a single child, so the walk reaches the root, whose case is
checked before its child count, and the entire root is replaced by an empty
node: "cd" disappears as well. -/
theorem C4_counterexample :
    ((((Trie.New Nat).Add "ab" 1).Add "cd" 2).Find "cd").isSome = true ∧
    (((((Trie.New Nat).Add "ab" 1).Add "cd" 2).Remove "ab").Find "cd").isSome = false ∧
    ((((Trie.New Nat).Add "ab" 1).Add "cd" 2).Remove "ab").Keys = [] := by
  exact ⟨rfl, rfl, rfl⟩

/-- C4 (amended): a removal never adds keys — every key enumerable after
`Remove` was enumerable before (both for the raw enumeration
`PrefixSearch("")` and, when the size counter is nonzero, for `Keys()`) —
but it does NOT delete only the requested key: the detached chain at the
first multi-child ancestor can carry other keys, and when the upward walk
reaches the root the whole tree is discarded even if the root has other
children (see the counterexample). -/
theorem C4_remove_frame {T : Type} (t : Trie T) (key : String) (s : String) :
    (s ∈ (t.Remove key).PrefixSearch "" → s ∈ t.PrefixSearch "") ∧
    (t.size ≠ 0 → s ∈ (t.Remove key).Keys → s ∈ t.Keys) := by
  constructor
  · intro h
    rw [prefixSearch_empty_eq] at h ⊢
    exact remove_collect_sub t key h
  · intro hsz h
    unfold Trie.Keys at h ⊢
    rw [if_neg hsz]
    by_cases hsz2 : (t.Remove key).size = 0
    · rw [if_pos hsz2] at h
      cases h
    · rw [if_neg hsz2] at h
      rw [prefixSearch_empty_eq] at h ⊢
      exact remove_collect_sub t key h

/-- Witness for C4: after removing "ab" from {"ab", "ax"}, the surviving
key "ax" was already present before. -/
theorem C4_remove_frame_witness :
    "ax" ∈ ((((Trie.New Nat).Add "ab" 1).Add "ax" 2).Remove "ab").PrefixSearch "" ∧
    "ax" ∈ (((Trie.New Nat).Add "ab" 1).Add "ax" 2).PrefixSearch "" := by
  have h := C4_remove_frame (((Trie.New Nat).Add "ab" 1).Add "ax" 2) "ab" "ax"
  have hmem : "ax" ∈ ((((Trie.New Nat).Add "ab" 1).Add "ax" 2).Remove "ab").PrefixSearch "" := by
    decide
  exact ⟨hmem, h.1 hmem⟩

theorem prefixSearch_eq {T : Type} (t : Trie T) (pre : String) :
    t.PrefixSearch pre =
      match findNode t.root pre.toList with
      | none => []
      | some nd => collectN nd := rfl

/-- C7, counterexample: `hasPrefix` is not "some stored key starts with the
argument" for the empty string on the empty trie: the descent over zero
characters trivially succeeds, so `HasKeysWithPrefix("")` returns true even
though nothing is stored. -/
theorem C7_counterexample :
    (Trie.New Nat).HasKeysWithPrefix "" = true ∧
    ∀ k, ((Trie.New Nat).Find k).isSome = false := by
  refine ⟨rfl, ?_⟩
  intro k
  rw [find_eq]
  cases hk : k.toList with
  | nil => simp [findNode, Trie.New, emptyRoot, findChild]
  | cons r rest => simp [findNode, Trie.New, emptyRoot, findChild]

/-- C7 (amended): `hasPrefix("")` is unconditionally true on every trie
(descent over no characters always succeeds), so the biconditional fails on
the empty trie; for every trie built by a sequence of operations and every
NONEMPTY query free of the nul rune, `hasPrefix(q)` is true exactly when
some stored key starts with `q`. -/
theorem C7_has_prefix {T : Type} :
    (∀ t : Trie T, t.HasKeysWithPrefix "" = true) ∧
    (∀ (ops : List (Op T)) (q : String), q ≠ "" → nul ∉ q.toList →
      ((buildTrie T ops).HasKeysWithPrefix q = true ↔
        ∃ k rm, ((buildTrie T ops).Find k).isSome = true ∧ q.toList ++ rm = k.toList)) := by
  constructor
  · intro t; rfl
  · intro ops q hq hnul
    constructor
    · intro h
      unfold Trie.HasKeysWithPrefix at h
      rw [Option.isSome_iff_exists] at h
      rcases h with ⟨nd, hnd⟩
      have hqlist : q.toList ≠ [] := fun hcon => hq (string_toList_nil hcon)
      have hw := buildTrie_wf (T := T) ops
      have hwu := hw
      unfold wfTrie at hwu
      simp only [Bool.and_eq_true] at hwu
      have hterm := termOk_descend q.toList (buildTrie T ops).root hwu.2 hnd
      have hhb : hasTermB nd = true := hterm.2 hqlist
      rcases collect_of_hasTermN nd hhb with ⟨s, hs⟩
      rcases stored_of_collect (buildTrie T ops) q.toList hw hnd hnul hs with ⟨hstored, rm, hrm⟩
      exact ⟨s, rm, hstored, hrm⟩
    · rintro ⟨k, rm, hk, hrm⟩
      rcases find_decompose _ k hk with ⟨par, c, hpar, _, _, _⟩
      unfold Trie.HasKeysWithPrefix
      rw [Option.isSome_iff_exists]
      have happ := findNode_append q.toList rm (buildTrie T ops).root
      rw [hrm, hpar] at happ
      cases hq2 : findNode (buildTrie T ops).root q.toList with
      | none => rw [hq2] at happ; simp at happ
      | some nd => exact ⟨nd, rfl⟩

/-- Witness for C7: its universal first half at the empty trie, and the
biconditional for q = "a" on the trie storing "ab". -/
theorem C7_has_prefix_witness :
    (Trie.New Nat).HasKeysWithPrefix "" = true ∧
    ((buildTrie Nat [Op.add "ab" 1]).HasKeysWithPrefix "a" = true ↔
      ∃ k rm, ((buildTrie Nat [Op.add "ab" 1]).Find k).isSome = true ∧
        ("a" : String).toList ++ rm = k.toList) := by
  refine ⟨( C7_has_prefix (T := Nat)).1 (Trie.New Nat), ?_⟩
  exact ( C7_has_prefix (T := Nat)).2 [Op.add "ab" 1] "a" (by decide) (by decide)

/-- C8, counterexample: a query that is NOT a prefix of any stored key can
still return results. With only "a" stored, the query "a\x00" descends into
the terminal sentinel node (the nul rune is a legal map key), and
collecting from there returns ["a"], although "a\x00" is not a prefix of
"a". -/
theorem C8_counterexample :
    ((Trie.New Nat).Add "a" 1).PrefixSearch "a\x00" = ["a"] ∧
    ∀ k rm, (((Trie.New Nat).Add "a" 1).Find k).isSome = true →
      ("a\x00" : String).toList ++ rm ≠ k.toList := by
  refine ⟨rfl, ?_⟩
  intro k rm hk hcon
  have hw : wfTrie ((Trie.New Nat).Add "a" 1) = true := by rfl
  have hmem := stored_mem_collect ((Trie.New Nat).Add "a" 1) [] k.toList k hw hk
    (by simp) rfl
  have hcol : collectN ((Trie.New Nat).Add "a" 1).root = ["a"] := rfl
  rw [hcol, List.mem_singleton] at hmem
  subst hmem
  have hlen := congrArg List.length hcon
  rw [List.length_append] at hlen
  have h2 : (("a\x00" : String).toList).length = 2 := rfl
  have h3 : (("a" : String).toList).length = 1 := rfl
  rw [h2, h3] at hlen
  omega

/-- C8 (amended): on every trie built by a sequence of operations, every
stored key k is contained in `prefixSearch(q)` for every prefix q of k;
and for every query q free of the nul rune that is not a prefix of any
stored key, `prefixSearch(q)` is empty. (Queries containing the nul rune
can descend into terminal sentinel nodes and return keys they are not a
prefix of, see the counterexample.) -/
theorem C8_prefix_search {T : Type} (ops : List (Op T)) :
    (∀ (k q : String) (rm : List Char), ((buildTrie T ops).Find k).isSome = true →
      q.toList ++ rm = k.toList → k ∈ (buildTrie T ops).PrefixSearch q) ∧
    (∀ q : String, nul ∉ q.toList →
      (∀ (k : String) (rm : List Char), ((buildTrie T ops).Find k).isSome = true →
        q.toList ++ rm ≠ k.toList) →
      (buildTrie T ops).PrefixSearch q = []) := by
  constructor
  · intro k q rm hk hrm
    rcases find_decompose _ k hk with ⟨par, c, hpar, hcc, hterm, _⟩
    have happ := findNode_append q.toList rm (buildTrie T ops).root
    rw [hrm, hpar] at happ
    cases hq2 : findNode (buildTrie T ops).root q.toList with
    | none => rw [hq2] at happ; simp at happ
    | some nd =>
        have hmem := stored_mem_collect (buildTrie T ops) q.toList rm k
          (buildTrie_wf ops) hk hrm hq2
        rw [prefixSearch_eq, hq2]
        exact hmem
  · intro q hnul hno
    rw [prefixSearch_eq]
    cases hq2 : findNode (buildTrie T ops).root q.toList with
    | none => rfl
    | some nd =>
        try simp only []
        cases hcol : collectN nd with
        | nil => rfl
        | cons s ss =>
            exfalso
            have hs : s ∈ collectN nd := by rw [hcol]; simp
            rcases stored_of_collect (buildTrie T ops) q.toList (buildTrie_wf ops) hq2 hnul hs
              with ⟨hstored, rm, hrm⟩
            exact hno s rm hstored hrm

/-- Witness for C8: the key "ab" is found by the prefix query "a" in the
trie storing it, and the query "zz" (not a prefix of anything) is empty. -/
theorem C8_prefix_search_witness :
    "ab" ∈ (buildTrie Nat [Op.add "ab" 1]).PrefixSearch "a" ∧
    (buildTrie Nat [Op.add "ab" 1]).PrefixSearch "zz" = [] := by
  constructor
  · exact (C8_prefix_search [Op.add "ab" 1]).1 "ab" "a" ['b'] (by rfl) (by decide)
  · refine (C8_prefix_search [Op.add "ab" 1]).2 "zz" (by decide) ?_
    intro k rm hk hcon
    have hw : wfTrie (buildTrie Nat [Op.add "ab" 1]) = true := by rfl
    have hmem := stored_mem_collect (buildTrie Nat [Op.add "ab" 1]) [] k.toList k hw hk
      (by simp) rfl
    have hcol : collectN (buildTrie Nat [Op.add "ab" 1]).root = ["ab"] := rfl
    rw [hcol, List.mem_singleton] at hmem
    subst hmem
    have hlen := congrArg (fun l => l.getD 0 nul) hcon
    simp at hlen

/-
The nul-leaf invariant: every nul-valued node of the tree is a leaf.
`Add` with a nul-free key and `Remove` with any key preserve it.
-/

theorem nulLeafC_cons {T : Type} (c : Node T) (rest : Children T) :
    nulLeafC (.cons c rest) = (nulLeafN c && nulLeafC rest) := by
  cases c with
  | mk cv cp ctm cd cmt cmk ctc ccs => rfl

theorem childCount_zero {T : Type} (cs : Children T) (h : childCount cs = 0) :
    cs = .nil := by
  cases cs with
  | nil => rfl
  | cons c rest => simp [childCount] at h

theorem nulLeaf_findChild {T : Type} (cs : Children T) {r : Char} {c : Node T}
    (hp : nulLeafC cs = true) (h : findChild cs r = some c) :
    nulLeafN c = true := by
  cases cs with
  | nil => cases h
  | cons n rest =>
      rw [nulLeafC_cons, Bool.and_eq_true] at hp
      unfold findChild at h
      by_cases hv : n.val = r
      · rw [if_pos hv] at h
        injection h with h
        rw [← h]
        exact hp.1
      · rw [if_neg hv] at h
        exact nulLeaf_findChild rest hp.2 h

theorem nulLeaf_setChild {T : Type} (cs : Children T) (c : Node T)
    (hp : nulLeafC cs = true) (hc : nulLeafN c = true) :
    nulLeafC (setChild cs c) = true := by
  cases cs with
  | nil =>
      show nulLeafC (.cons c .nil) = true
      rw [nulLeafC_cons, Bool.and_eq_true]
      exact ⟨hc, rfl⟩
  | cons n rest =>
      rw [nulLeafC_cons, Bool.and_eq_true] at hp
      unfold setChild
      by_cases hv : n.val = c.val
      · rw [if_pos hv]
        rw [nulLeafC_cons, Bool.and_eq_true]
        exact ⟨hc, hp.2⟩
      · rw [if_neg hv]
        rw [nulLeafC_cons, Bool.and_eq_true]
        exact ⟨hp.1, nulLeaf_setChild rest c hp.2 hc⟩

theorem nulLeaf_eraseChild {T : Type} (cs : Children T) (r : Char)
    (hp : nulLeafC cs = true) : nulLeafC (eraseChild cs r) = true := by
  cases cs with
  | nil => rfl
  | cons n rest =>
      rw [nulLeafC_cons, Bool.and_eq_true] at hp
      unfold eraseChild
      by_cases hv : n.val = r
      · rw [if_pos hv]; exact hp.2
      · rw [if_neg hv]
        rw [nulLeafC_cons, Bool.and_eq_true]
        exact ⟨hp.1, nulLeaf_eraseChild rest r hp.2⟩

theorem nulLeaf_addGo {T : Type} (rs : List Char) :
    ∀ (n : Node T) (key : String) (meta : T), nul ∉ rs →
    nulLeafC n.children = true → nulLeafC (addGo n rs key meta).children = true := by
  induction rs with
  | nil =>
      intro n key meta _ h
      cases n with
      | mk v p tm d mt msk tc cs =>
          unfold addGo
          simp only [Node.children]
          exact nulLeaf_setChild cs _ h rfl
  | cons r rest ih =>
      intro n key meta hnul h
      have hr : (r != nul) = true := by
        rw [bne_iff_ne]
        intro hc
        exact hnul (by rw [hc]; exact List.mem_cons_self _ _)
      have hrest : nul ∉ rest := fun hm => hnul (List.mem_cons_of_mem _ hm)
      cases n with
      | mk v p tm d mt msk tc cs =>
          unfold addGo
          cases hc : findChild cs r with
          | none =>
              simp only [Node.children]
              refine nulLeaf_setChild cs _ h ?_
              unfold nulLeafN
              rw [Bool.and_eq_true]
              constructor
              · rw [addGo_val]
                exact Bool.or_eq_true_iff.mpr (Or.inl hr)
              · exact ih _ key meta hrest rfl
          | some c =>
              cases c with
              | mk cv cp ctm cd cmt cmk ctc ccs =>
                  have hcl := nulLeaf_findChild cs h hc
                  unfold nulLeafN at hcl
                  simp only [Node.val, Node.children, Bool.and_eq_true] at hcl
                  simp only [Node.children]
                  refine nulLeaf_setChild cs _ h ?_
                  unfold nulLeafN
                  rw [Bool.and_eq_true]
                  constructor
                  · rw [addGo_val]
                    have hcvr : cv = r := findChild_val cs hc
                    show (cv != nul || _) = true
                    rw [hcvr]
                    exact Bool.or_eq_true_iff.mpr (Or.inl hr)
                  · exact ih (.mk cv cp ctm cd cmt
                      (cmk ||| maskruneslice (r :: rest)) (ctc + 1) ccs) key meta hrest hcl.2

theorem removeGo_nil_children {T : Type} (rs : List Char) (n : Node T)
    (h : n.children = .nil) : ∀ (drem : List Char), removeGo rs n drem = (n, false) := by
  intro drem
  cases drem with
  | nil => rfl
  | cons r rest =>
      unfold removeGo
      rw [h]
      rfl

theorem nulLeaf_removeGo {T : Type} (rs : List Char) :
    ∀ (drem : List Char) (n : Node T),
    nulLeafC n.children = true → nulLeafC ((removeGo rs n drem).1).children = true := by
  intro drem
  induction drem with
  | nil => intro n h; exact h
  | cons r rest ih =>
      intro n h
      unfold removeGo
      cases hc : findChild n.children r with
      | none => exact h
      | some c =>
          rcases hrg : removeGo rs c rest with ⟨c', flag⟩
          cases flag with
          | true =>
              simp only [hrg]
              simp only [recomputeMask_children, withChildren_children]
              refine nulLeaf_setChild n.children c' h ?_
              have hcn := nulLeaf_findChild n.children h hc
              unfold nulLeafN at hcn ⊢
              rw [Bool.and_eq_true] at hcn ⊢
              have hch : nulLeafC c'.children = true := by
                have := ih c hcn.2
                rw [hrg] at this
                exact this
              have hval : c'.val = c.val := by
                have := (removeGo_fields rs rest c).1.1
                rw [hrg] at this
                exact this
              refine ⟨?_, hch⟩
              rcases Bool.or_eq_true_iff.mp hcn.1 with hv | hcc
              · rw [hval]
                exact Bool.or_eq_true_iff.mpr (Or.inl hv)
              · exfalso
                have hnilc : c.children = .nil := childCount_zero _ (beq_iff_eq.mp hcc)
                have hno := removeGo_nil_children rs c hnilc rest
                rw [hno] at hrg
                injection hrg with h1 h2
                cases h2
          | false =>
              by_cases hcount : 1 < childCount n.children
              · simp only [hrg]
                rw [if_pos hcount]
                simp only [withChildren_children]
                exact nulLeaf_eraseChild n.children _ h
              · simp only [hrg]
                rw [if_neg hcount]
                exact h

theorem nulLeafN_removeGo_child {T : Type} (rs drem : List Char) {c c' : Node T}
    (hcn : nulLeafN c = true) (hrg : removeGo rs c drem = (c', true)) :
    nulLeafN c' = true := by
  unfold nulLeafN at hcn ⊢
  rw [Bool.and_eq_true] at hcn ⊢
  have hch : nulLeafC c'.children = true := by
    have := nulLeaf_removeGo rs drem c hcn.2
    rw [hrg] at this
    exact this
  have hval : c'.val = c.val := by
    have := (removeGo_fields rs drem c).1.1
    rw [hrg] at this
    exact this
  refine ⟨?_, hch⟩
  rcases Bool.or_eq_true_iff.mp hcn.1 with hv | hcc
  · rw [hval]
    exact Bool.or_eq_true_iff.mpr (Or.inl hv)
  · exfalso
    have hnilc : c.children = .nil := childCount_zero _ (beq_iff_eq.mp hcc)
    have hno := removeGo_nil_children rs c hnilc drem
    rw [hno] at hrg
    injection hrg with h1 h2
    cases h2

theorem nulLeaf_add {T : Type} (t : Trie T) (key : String) (meta : T)
    (hk : nul ∉ key.toList) (h : nulLeafC t.root.children = true) :
    nulLeafC (t.Add key meta).root.children = true := by
  cases t with
  | mk root size =>
      cases root with
      | mk v p tm d mt msk tc cs =>
          unfold Trie.Add
          simp only []
          exact nulLeaf_addGo key.toList _ key meta hk h

theorem nulLeaf_remove {T : Type} (t : Trie T) (key : String)
    (h : nulLeafC t.root.children = true) :
    nulLeafC (t.Remove key).root.children = true := by
  unfold Trie.Remove
  simp only []
  cases hf : findNode t.root key.toList with
  | none => exact h
  | some nd =>
      try simp only []
      cases hrs : key.toList with
      | nil => exact h
      | cons r rest =>
          try simp only []
          cases hc : findChild t.root.children r with
          | none => exact h
          | some c =>
              try simp only []
              rcases hrg : removeGo (r :: rest) c rest with ⟨c', flag⟩
              cases flag with
              | false => rfl
              | true =>
                  try simp only []
                  simp only [recomputeMask_children, withChildren_children]
                  refine nulLeaf_setChild t.root.children c' h ?_
                  exact nulLeafN_removeGo_child (r :: rest) rest
                    (nulLeaf_findChild t.root.children h hc) hrg

theorem nulLeaf_applyOp {T : Type} (t : Trie T) (op : Op T)
    (hop : opNulFree op = true) (h : nulLeafC t.root.children = true) :
    nulLeafC (applyOp t op).root.children = true := by
  cases op with
  | add key meta => exact nulLeaf_add t key meta (of_decide_eq_true hop) h
  | remove key => exact nulLeaf_remove t key h

theorem nulLeaf_foldl {T : Type} (ops : List (Op T)) :
    ∀ (t : Trie T), (∀ op ∈ ops, opNulFree op = true) →
    nulLeafC t.root.children = true →
    nulLeafC ((ops.foldl applyOp t)).root.children = true := by
  induction ops with
  | nil => intro t _ h; exact h
  | cons op rest ih =>
      intro t hops h
      rw [List.foldl_cons]
      exact ih _ (fun o ho => hops o (List.mem_cons_of_mem _ ho))
        (nulLeaf_applyOp t op (hops op (List.mem_cons_self _ _)) h)

theorem buildTrie_nulLeaf {T : Type} (ops : List (Op T))
    (hops : ∀ op ∈ ops, opNulFree op = true) :
    nulLeafC (buildTrie T ops).root.children = true :=
  nulLeaf_foldl ops (Trie.New T) hops rfl

/-
The root keeps the zero (nul) value under every operation.
-/

theorem root_val_applyOp {T : Type} (t : Trie T) (op : Op T)
    (h : t.root.val = nul) : (applyOp t op).root.val = nul := by
  cases op with
  | add key meta =>
      cases t with
      | mk root size =>
          cases root with
          | mk v p tm d mt msk tc cs =>
              unfold applyOp Trie.Add
              simp only []
              rw [addGo_val]
              exact h
  | remove key =>
      unfold applyOp Trie.Remove
      simp only []
      cases hf : findNode t.root key.toList with
      | none => exact h
      | some nd =>
          try simp only []
          cases hrs : key.toList with
          | nil => exact h
          | cons r rest =>
              try simp only []
              cases hc : findChild t.root.children r with
              | none => exact h
              | some c =>
                  try simp only []
                  rcases hrg : removeGo (r :: rest) c rest with ⟨c', flag⟩
                  cases flag with
                  | false => rfl
                  | true =>
                      try simp only []
                      simp only [recomputeMask_val, withChildren_val]
                      exact h

theorem buildTrie_root_val {T : Type} (ops : List (Op T)) :
    (buildTrie T ops).root.val = nul := by
  have gen : ∀ (l : List (Op T)) (t : Trie T), t.root.val = nul →
      ((l.foldl applyOp t)).root.val = nul := by
    intro l
    induction l with
    | nil => intro t h; exact h
    | cons op rest ih =>
        intro t h
        rw [List.foldl_cons]
        exact ih _ (root_val_applyOp t op h)
  exact gen ops (Trie.New T) rfl

/-
List helpers for subsequence reasoning.
-/

theorem getD_mem {α : Type} (l : List α) (i : Nat) (d : α) (h : i < l.length) :
    l.getD i d ∈ l := by
  rw [List.getD_eq_getElem l d h]
  exact List.getElem_mem h

theorem take_succ_concat {α : Type} (l : List α) (i : Nat) (d : α) (h : i < l.length) :
    l.take (i + 1) = l.take i ++ [l.getD i d] := by
  rw [List.take_succ, List.getD_eq_getElem l d h]
  rw [List.getElem?_eq_getElem h]
  rfl

theorem drop_eq_getD_cons {α : Type} (l : List α) (i : Nat) (d : α) (h : i < l.length) :
    l.drop i = l.getD i d :: l.drop (i + 1) := by
  rw [List.getD_eq_getElem l d h]
  exact List.drop_eq_getElem_cons h

theorem sublist_concat_drop {α : Type} {p xs : List α} {a : α}
    (h : List.Sublist p (xs ++ [a])) (ha : a ∉ p) : List.Sublist p xs := by
  rcases List.sublist_append_iff.mp h with ⟨l1, l2, hp, h1, h2⟩
  subst hp
  cases l2 with
  | nil => rw [List.append_nil]; exact h1
  | cons b bs =>
      exfalso
      apply ha
      cases h2 with
      | cons _ h' => cases h'
      | cons₂ _ h' => exact List.mem_append_right _ (List.mem_cons_self _ _)

/-
The work-list body as a closed equation (the `let` zeta-reduced).
-/

theorem fuzzyGoN_eq {T : Type} (pat : List Char) (v : Char) (p : String) (tm : Bool)
    (d : Nat) (mt : Option T) (msk tc : Nat) (cs : Children T) (idx : Nat) :
    fuzzyGoN pat (.mk v p tm d mt msk tc cs) idx =
      if ¬ (msk &&& maskruneslice (pat.drop idx) = maskruneslice (pat.drop idx)) then []
      else if v = pat.getD idx nul then
        (if idx + 1 = pat.length then collectN (.mk v p tm d mt msk tc cs)
         else fuzzyGoC pat cs (idx + 1))
      else fuzzyGoC pat cs idx := rfl

/-
Every key emitted by the fuzzy work list is collected from the seed's
subtree, counted with multiplicity (this bounds duplicates for C10 and
gives storedness for C3).
-/

theorem count_collectC_le_collectN {T : Type} (v : Char) (p : String) (tm : Bool)
    (d : Nat) (mt : Option T) (msk tc : Nat) (cs : Children T) (s : String) :
    List.count s (collectC cs) ≤ List.count s (collectN (.mk v p tm d mt msk tc cs)) := by
  unfold collectN
  simp only [Node.term, Node.path, Node.children]
  rw [List.count_append]
  exact Nat.le_add_left _ _

mutual

theorem fuzzy_countN {T : Type} (pat : List Char) :
    ∀ (n : Node T) (idx : Nat) (s : String),
    List.count s (fuzzyGoN pat n idx) ≤ List.count s (collectN n)
  | .mk v p tm d mt msk tc cs, idx, s => by
      rw [fuzzyGoN_eq]
      by_cases hm : msk &&& maskruneslice (pat.drop idx) = maskruneslice (pat.drop idx)
      · rw [if_neg (not_not_intro hm)]
        by_cases hv : v = pat.getD idx nul
        · rw [if_pos hv]
          by_cases hlen : idx + 1 = pat.length
          · rw [if_pos hlen]
          · rw [if_neg hlen]
            exact le_trans (fuzzy_countC pat cs (idx + 1) s)
              (count_collectC_le_collectN v p tm d mt msk tc cs s)
        · rw [if_neg hv]
          exact le_trans (fuzzy_countC pat cs idx s)
            (count_collectC_le_collectN v p tm d mt msk tc cs s)
      · rw [if_pos hm]
        exact Nat.zero_le _

theorem fuzzy_countC {T : Type} (pat : List Char) :
    ∀ (cs : Children T) (idx : Nat) (s : String),
    List.count s (fuzzyGoC pat cs idx) ≤ List.count s (collectC cs)
  | .nil, idx, s => Nat.le_refl _
  | .cons c rest, idx, s => by
      rw [collectC_cons]
      unfold fuzzyGoC
      rw [List.count_append, List.count_append]
      exact Nat.add_le_add (fuzzy_countN pat c idx s) (fuzzy_countC pat rest idx s)

end

theorem fuzzy_mem_collectN {T : Type} (pat : List Char) (n : Node T) (idx : Nat)
    {s : String} (hs : s ∈ fuzzyGoN pat n idx) : s ∈ collectN n := by
  rw [← List.count_pos_iff]
  exact lt_of_lt_of_le (List.count_pos_iff.mpr hs) (fuzzy_countN pat n idx s)

/-
The collected key list of a well-formed subtree has no duplicates: the
terminal positions named by `collect_sound` are pairwise distinct rune
paths, and the `path` fields spell those positions.
-/

mutual

theorem collect_nodupN {T : Type} : ∀ (n : Node T) (pr : List Char),
    pathOkN pr n = true → uniqN n = true → (collectN n).Nodup
  | .mk v p tm d mt msk tc cs, pr => by
      intro hp hu
      rcases pathOkN_mk.mp hp with ⟨hp1, hp2⟩
      rw [uniqN_mk] at hu
      cases tm with
      | false =>
          unfold collectN
          simp only [Node.term, Node.path, Node.children]
          rw [if_neg (by simp)]
          rw [List.nil_append]
          exact collect_nodupC cs pr hp2 hu
      | true =>
          unfold collectN
          simp only [Node.term, Node.path, Node.children]
          rw [if_pos True.intro]
          rw [List.nodup_append]
          refine ⟨List.nodup_singleton _, collect_nodupC cs pr hp2 hu, ?_⟩
          intro x hx hx2
          rw [List.mem_singleton] at hx
          rw [hx] at hx2
          rcases collect_soundC cs pr p hp2 hu hx2 with ⟨r, c0, _, ext, c, _, _, heq⟩
          have hpr : p.toList ++ [nul] = pr := hp1 rfl
          rw [← hpr] at heq
          have hlen := congrArg List.length heq
          simp only [List.length_append, List.length_singleton, List.length_cons] at hlen
          omega

theorem collect_nodupC {T : Type} : ∀ (cs : Children T) (pr : List Char),
    pathOkC pr cs = true → uniqC cs = true → (collectC cs).Nodup
  | .nil, pr => by
      intro _ _
      exact List.nodup_nil
  | .cons (.mk cv cp ctm cd cmt cmk ctc ccs) rest, pr => by
      intro hp hu
      unfold pathOkC at hp
      unfold uniqC at hu
      simp only [Bool.and_eq_true] at hp hu
      have hpn : pathOkN (pr ++ [cv]) (.mk cv cp ctm cd cmt cmk ctc ccs) = true := by
        rw [pathOkN_mk]
        refine ⟨fun htm => ?_, hp.1.2⟩
        have h1 := hp.1.1
        rw [htm] at h1
        simp only [Bool.not_true, Bool.false_or] at h1
        exact beq_iff_eq.mp h1
      have hun : uniqN (.mk cv cp ctm cd cmt cmk ctc ccs) = true := by
        rw [uniqN_mk]; exact hu.1.2
      rw [collectC_cons, List.nodup_append]
      refine ⟨collect_nodupN (.mk cv cp ctm cd cmt cmk ctc ccs) (pr ++ [cv]) hpn hun,
        collect_nodupC rest pr hp.2 hu.2, ?_⟩
      intro x hx hx2
      rcases collect_soundN (.mk cv cp ctm cd cmt cmk ctc ccs) (pr ++ [cv]) x hpn hun hx
        with ⟨ext, c, _, _, heq1⟩
      rcases collect_soundC rest pr x hp.2 hu.2 hx2 with ⟨r, c0', hfc', ext', c', _, _, heq2⟩
      have hne : cv ≠ r := by
        intro hcon
        subst hcon
        have hvm := findChild_some_valMem rest hfc'
        have hnm := hu.1.1
        rw [hvm] at hnm
        cases hnm
      have heq3 : (pr ++ [cv]) ++ ext = (pr ++ [r]) ++ ext' := by rw [heq1, heq2]
      rw [List.append_assoc, List.append_assoc] at heq3
      have h4 := List.append_cancel_left heq3
      rw [List.singleton_append, List.singleton_append] at h4
      injection h4 with h5 h6
      exact hne h5

end

/-
Fuzzy soundness: with a pattern free of the nul rune, every emitted key
has the whole pattern as a subsequence. The invariant threaded down the
tree: the pattern's first `idx` runes embed into the rune path `q` above
the visited node.
-/

mutual

theorem fuzzy_subN {T : Type} (pat : List Char) (hnp : nul ∉ pat) :
    ∀ (n : Node T) (idx : Nat) (q : List Char) {s : String},
    pathOkN (q ++ [n.val]) n = true → uniqN n = true → nulLeafN n = true →
    nul ∉ q → List.Sublist (pat.take idx) q → idx < pat.length →
    s ∈ fuzzyGoN pat n idx → List.Sublist pat s.toList
  | .mk v p tm d mt msk tc cs, idx, q, s => by
      intro hpath huq hnl hq htake hidx hs
      simp only [Node.val] at hpath
      rw [fuzzyGoN_eq] at hs
      by_cases hm : msk &&& maskruneslice (pat.drop idx) = maskruneslice (pat.drop idx)
      · rw [if_neg (not_not_intro hm)] at hs
        by_cases hv : v = pat.getD idx nul
        · have hgd : pat.getD idx nul ∈ pat := getD_mem pat idx nul hidx
          have hvn : v ≠ nul := by
            rw [hv]
            intro hc
            exact hnp (hc ▸ hgd)
          rw [if_pos hv] at hs
          by_cases hlen : idx + 1 = pat.length
          · rw [if_pos hlen] at hs
            rcases collect_soundN (.mk v p tm d mt msk tc cs) (q ++ [v]) s hpath huq hs
              with ⟨ext, c, _, _, heq⟩
            have hpat_eq : pat = pat.take idx ++ [pat.getD idx nul] := by
              have h1 := take_succ_concat pat idx nul hidx
              rw [hlen, List.take_length] at h1
              exact h1
            have hstep1 : List.Sublist pat (q ++ [v]) := by
              rw [hpat_eq, ← hv]
              exact List.Sublist.append htake (List.Sublist.refl [v])
            have hstep2 : List.Sublist (q ++ [v]) (s.toList ++ [nul]) := by
              rw [← heq]
              exact List.sublist_append_left _ _
            exact sublist_concat_drop (hstep1.trans hstep2) hnp
          · rw [if_neg hlen] at hs
            have hidx2 : idx + 1 < pat.length := by omega
            rcases pathOkN_mk.mp hpath with ⟨hp1, hp2⟩
            rw [uniqN_mk] at huq
            unfold nulLeafN at hnl
            simp only [Node.children, Bool.and_eq_true] at hnl
            refine fuzzy_subC pat hnp cs (idx + 1) (q ++ [v]) hp2 huq hnl.2 ?_ ?_ hidx2 hs
            · intro hmem
              rcases List.mem_append.mp hmem with h1 | h1
              · exact hq h1
              · rw [List.mem_singleton] at h1
                exact hvn h1.symm
            · rw [take_succ_concat pat idx nul hidx, ← hv]
              exact List.Sublist.append htake (List.Sublist.refl [v])
        · rw [if_neg hv] at hs
          by_cases hvnul : v = nul
          · unfold nulLeafN at hnl
            simp only [Node.val, Node.children, Bool.and_eq_true] at hnl
            have hcnt : childCount cs = 0 := by
              rcases Bool.or_eq_true_iff.mp hnl.1 with h1 | h1
              · rw [bne_iff_ne] at h1; exact absurd hvnul h1
              · exact beq_iff_eq.mp h1
            have hnil := childCount_zero cs hcnt
            subst hnil
            cases hs
          · rcases pathOkN_mk.mp hpath with ⟨hp1, hp2⟩
            rw [uniqN_mk] at huq
            unfold nulLeafN at hnl
            simp only [Node.children, Bool.and_eq_true] at hnl
            refine fuzzy_subC pat hnp cs idx (q ++ [v]) hp2 huq hnl.2 ?_ ?_ hidx hs
            · intro hmem
              rcases List.mem_append.mp hmem with h1 | h1
              · exact hq h1
              · rw [List.mem_singleton] at h1
                exact hvnul h1.symm
            · exact htake.trans (List.sublist_append_left q [v])
      · rw [if_pos hm] at hs
        cases hs

theorem fuzzy_subC {T : Type} (pat : List Char) (hnp : nul ∉ pat) :
    ∀ (cs : Children T) (idx : Nat) (q : List Char) {s : String},
    pathOkC q cs = true → uniqC cs = true → nulLeafC cs = true →
    nul ∉ q → List.Sublist (pat.take idx) q → idx < pat.length →
    s ∈ fuzzyGoC pat cs idx → List.Sublist pat s.toList
  | .nil, idx, q, s => by
      intro _ _ _ _ _ _ hs
      cases hs
  | .cons (.mk cv cp ctm cd cmt cmk ctc ccs) rest, idx, q, s => by
      intro hpath huq hnl hq htake hidx hs
      unfold fuzzyGoC at hs
      unfold pathOkC at hpath
      unfold uniqC at huq
      rw [nulLeafC_cons, Bool.and_eq_true] at hnl
      simp only [Bool.and_eq_true] at hpath huq
      rcases List.mem_append.mp hs with h1 | h1
      · refine fuzzy_subN pat hnp (.mk cv cp ctm cd cmt cmk ctc ccs) idx q
          ?_ ?_ hnl.1 hq htake hidx h1
        · rw [pathOkN_mk]
          refine ⟨fun htm => ?_, hpath.1.2⟩
          have h2 := hpath.1.1
          rw [htm] at h2
          simp only [Bool.not_true, Bool.false_or] at h2
          exact beq_iff_eq.mp h2
        · rw [uniqN_mk]; exact huq.1.2
      · exact fuzzy_subC pat hnp rest idx q hpath.2 huq.2 hnl.2 hq htake hidx h1

end

/-- At a root whose value is the nul rune, a nonempty nul-free pattern
never matches the root itself, so the work list proceeds to the children. -/
theorem fuzzyGoN_root {T : Type} (pat : List Char) (n : Node T) (h : n.val = nul)
    (hpat : pat ≠ []) (hnp : nul ∉ pat) {s : String}
    (hs : s ∈ fuzzyGoN pat n 0) : s ∈ fuzzyGoC pat n.children 0 := by
  cases n with
  | mk v p tm d mt msk tc cs =>
      simp only [Node.val] at h
      simp only [Node.children]
      rw [fuzzyGoN_eq] at hs
      by_cases hm : msk &&& maskruneslice (pat.drop 0) = maskruneslice (pat.drop 0)
      · rw [if_neg (not_not_intro hm)] at hs
        have hgd : pat.getD 0 nul ∈ pat := getD_mem pat 0 nul (List.length_pos.mpr hpat)
        have hne : ¬ (v = pat.getD 0 nul) := by
          intro hc
          apply hnp
          rw [← hc, h] at hgd
          exact h ▸ hgd
        rw [if_neg hne] at hs
        exact hs
      · rw [if_pos hm] at hs
        cases hs

/-
Fuzzy completeness: a stored key containing the remaining pattern as a
subsequence of its remaining runes is always emitted — the greedy index
advance never loses a match, thanks to the order-preserving subsequence
structure, and the mask test never prunes it (C6's invariant).
-/

theorem mem_fuzzyGoC_of_findChild {T : Type} (pat : List Char) (cs : Children T)
    {r : Char} {c : Node T} {idx : Nat} {s : String}
    (hc : findChild cs r = some c) (hs : s ∈ fuzzyGoN pat c idx) :
    s ∈ fuzzyGoC pat cs idx := by
  cases cs with
  | nil => cases hc
  | cons n rest =>
      unfold fuzzyGoC
      rw [List.mem_append]
      unfold findChild at hc
      by_cases hv : n.val = r
      · rw [if_pos hv] at hc
        injection hc with hc
        subst hc
        left; exact hs
      · rw [if_neg hv] at hc
        right; exact mem_fuzzyGoC_of_findChild pat rest hc hs

theorem fuzzy_completeN {T : Type} (pat : List Char) :
    ∀ (rem : List Char) (n : Node T) (idx : Nat) {par c : Node T} {s : String},
    maskOkN n = true →
    findNode n rem = some par → findChild par.children nul = some c →
    c.term = true → c.path = s →
    idx < pat.length → List.Sublist (pat.drop idx) (n.val :: rem) →
    s ∈ fuzzyGoN pat n idx := by
  intro rem
  induction rem with
  | nil =>
      intro n idx par c s hmask hpar hcc hterm hpath hidx hsub
      cases n with
      | mk v p tm d mt msk tc cs =>
          simp only [Node.val] at hsub
          rw [drop_eq_getD_cons pat idx nul hidx] at hsub
          cases hsub with
          | cons _ h' => cases h'
          | cons₂ _ h' =>
              have hdropnil : pat.drop (idx + 1) = [] := List.sublist_nil.mp h'
              have hlen : idx + 1 = pat.length := by
                have h2 : pat.length ≤ idx + 1 := List.drop_eq_nil_iff.mp hdropnil
                omega
              rw [fuzzyGoN_eq]
              have hmaskpass : msk &&& maskruneslice (pat.drop idx) =
                  maskruneslice (pat.drop idx) := by
                rw [land_eq_iff_msub, drop_eq_getD_cons pat idx nul hidx, hdropnil,
                  maskruneslice_cons, maskruneslice_nil, Nat.or_zero]
                exact msub_of_lor_left (maskOkN_mk.mp hmask).1
              rw [if_neg (not_not_intro hmaskpass), if_pos rfl, if_pos hlen]
              rw [← hpath]
              exact mem_collect_of_term _ hpar hcc hterm
  | cons r2 rem2 ih =>
      intro n idx par c s hmask hpar hcc hterm hpath hidx hsub
      cases n with
      | mk v p tm d mt msk tc cs =>
          simp only [Node.val] at hsub
          have hpar2 : ∃ c2, findChild cs r2 = some c2 ∧ findNode c2 rem2 = some par := by
            have h0 := hpar
            unfold findNode at h0
            simp only [Node.children] at h0
            cases hc2 : findChild cs r2 with
            | none => rw [hc2] at h0; cases h0
            | some c2 => exact ⟨c2, rfl, by rw [hc2] at h0; exact h0⟩
          rcases hpar2 with ⟨c2, hc2, hpar2⟩
          have hchain : maskruneslice (r2 :: rem2) ||| msk = msk := by
            have h3 := maskOk_chain (r2 :: rem2) (.mk v p tm d mt msk tc cs) hmask hpar
            exact h3
          have hvbit : runeBit v ||| msk = msk :=
            msub_of_lor_left (maskOkN_mk.mp hmask).1
          have hmaskpass : msk &&& maskruneslice (pat.drop idx) =
              maskruneslice (pat.drop idx) := by
            rw [land_eq_iff_msub]
            refine msub_trans (maskruneslice_sublist hsub) ?_
            rw [maskruneslice_cons]
            exact msub_lub hvbit hchain
          rw [fuzzyGoN_eq]
          rw [if_neg (not_not_intro hmaskpass)]
          have hcval : c2.val = r2 := findChild_val cs hc2
          have hmc2 : maskOkN c2 = true := maskOk_findChild cs (maskOkN_mk.mp hmask).2 hc2
          by_cases hv : v = pat.getD idx nul
          · rw [if_pos hv]
            by_cases hlen : idx + 1 = pat.length
            · rw [if_pos hlen]
              rw [← hpath]
              exact mem_collect_of_term _ hpar hcc hterm
            · rw [if_neg hlen]
              have hidx2 : idx + 1 < pat.length := by omega
              have hstep : List.Sublist (pat.drop (idx + 1)) (r2 :: rem2) := by
                rw [drop_eq_getD_cons pat idx nul hidx, ← hv] at hsub
                exact List.cons_sublist_cons.mp hsub
              refine mem_fuzzyGoC_of_findChild pat cs hc2 ?_
              refine ih c2 (idx + 1) hmc2 hpar2 hcc hterm hpath hidx2 ?_
              rw [hcval]
              exact hstep
          · rw [if_neg hv]
            have hstep : List.Sublist (pat.drop idx) (r2 :: rem2) := by
              rw [drop_eq_getD_cons pat idx nul hidx] at hsub ⊢
              cases hsub with
              | cons _ h' => exact h'
              | cons₂ _ h' => exact absurd rfl hv
            refine mem_fuzzyGoC_of_findChild pat cs hc2 ?_
            refine ih c2 idx hmc2 hpar2 hcc hterm hpath hidx ?_
            rw [hcval]
            exact hstep

theorem fuzzy_complete_root {T : Type} (t : Trie T) (pat : List Char) {k : String}
    (hw : wfTrie t = true) (hpat : pat ≠ [])
    (hk : (t.Find k).isSome = true) (hsub : List.Sublist pat k.toList) :
    k ∈ fuzzyGoN pat t.root 0 := by
  rcases find_decompose t k hk with ⟨par, c, hpar, hcc, hterm, _⟩
  have hpath := path_field_of_stored t k hw hpar hcc hterm
  have hmask : maskOkN t.root = true := by
    unfold wfTrie at hw
    simp only [Bool.and_eq_true] at hw
    exact hw.1.1.2
  refine fuzzy_completeN pat k.toList t.root 0 hmask hpar hcc hterm hpath
    (List.length_pos.mpr hpat) ?_
  rw [List.drop_zero]
  exact List.Sublist.cons _ hsub

/-- C3 fails as stated: with only "a" stored, the one-rune pattern
consisting of the nul rune is not a subsequence of "a", yet fuzzySearch
returns ["a"]: the root's value is the nul rune, so the pattern matches at
the root and the whole tree is collected. -/
theorem C3_counterexample :
    ((Trie.New Nat).Add "a" 1).FuzzySearch "\x00" = ["a"] ∧
    ¬ List.Sublist "\x00".toList "a".toList := by
  constructor
  · rfl
  · decide

/-- C3: corrected form. For tries built by Add/Remove sequences whose
added keys avoid the nul rune, and for patterns free of the nul rune,
fuzzySearch(p) holds exactly the stored keys with p as a subsequence, and
the result is sorted by byte length ascending (`sort.Sort(ByKeys(...))`).
A pattern containing the nul rune breaks the membership claim
(`C3_counterexample`), because the sentinel rune is matchable at the root
and at terminal sentinels. -/
theorem C3_fuzzy_search {T : Type} (ops : List (Op T)) (p : String)
    (hops : ∀ op ∈ ops, opNulFree op = true) (hp : nul ∉ p.toList) :
    (∀ k : String, k ∈ (buildTrie T ops).FuzzySearch p ↔
      (((buildTrie T ops).Find k).isSome = true ∧ List.Sublist p.toList k.toList)) ∧
    List.Sorted byKeysLe ((buildTrie T ops).FuzzySearch p) := by
  have hw := buildTrie_wf ops
  constructor
  · intro k
    unfold Trie.FuzzySearch
    rw [(List.perm_insertionSort byKeysLe _).mem_iff]
    unfold fuzzycollect
    cases hpl : p.toList with
    | nil =>
        rw [if_pos (List.isEmpty_nil : ([] : List Char).isEmpty = true)]
        constructor
        · intro hmem
          rcases stored_of_collect (buildTrie T ops) [] hw rfl (by simp) hmem
            with ⟨hstored, _⟩
          exact ⟨hstored, List.nil_sublist _⟩
        · intro hmem
          exact stored_mem_collect (buildTrie T ops) [] k.toList k hw hmem.1 (by simp) rfl
    | cons r rest =>
        rw [if_neg (by simp : ¬ ((r :: rest).isEmpty = true))]
        rw [hpl] at hp
        constructor
        · intro hmem
          constructor
          · have hcol := fuzzy_mem_collectN (r :: rest) (buildTrie T ops).root 0 hmem
            rcases stored_of_collect (buildTrie T ops) [] hw rfl (by simp) hcol
              with ⟨hstored, _⟩
            exact hstored
          · have hchild := fuzzyGoN_root (r :: rest) (buildTrie T ops).root
              (buildTrie_root_val ops) (by simp) hp hmem
            have hpathC : pathOkC [] (buildTrie T ops).root.children = true := by
              have hpn : pathOkN [] (buildTrie T ops).root = true := by
                unfold wfTrie at hw
                simp only [Bool.and_eq_true] at hw
                exact hw.1.2
              unfold pathOkN at hpn
              simp only [Bool.and_eq_true] at hpn
              exact hpn.2
            have huqC : uniqC (buildTrie T ops).root.children = true := by
              unfold wfTrie at hw
              simp only [Bool.and_eq_true] at hw
              exact hw.1.1.1.2
            exact fuzzy_subC (r :: rest) hp (buildTrie T ops).root.children 0 []
              hpathC huqC (buildTrie_nulLeaf ops hops) (by simp)
              (by rw [List.take_zero]) (by simp) hchild
        · intro hmem
          exact fuzzy_complete_root (buildTrie T ops) (r :: rest) hw (by simp)
            hmem.1 hmem.2
  · exact List.sorted_insertionSort byKeysLe _

/-- Witness for C3: the trie {"ab", "b"} with the pattern "b", a nul-free
instance where the corrected membership equivalence and the sortedness
both hold. -/
theorem C3_fuzzy_search_witness :
    (∀ k : String, k ∈ (buildTrie Nat [Op.add "ab" 1, Op.add "b" 2]).FuzzySearch "b" ↔
      (((buildTrie Nat [Op.add "ab" 1, Op.add "b" 2]).Find k).isSome = true ∧
        List.Sublist "b".toList k.toList)) ∧
    List.Sorted byKeysLe ((buildTrie Nat [Op.add "ab" 1, Op.add "b" 2]).FuzzySearch "b") :=
  C3_fuzzy_search [Op.add "ab" 1, Op.add "b" 2] "b" (by decide) (by decide)

/-- C10: fuzzySearch never emits the same key twice: for every trie
reachable by Add/Remove operations and every pattern, the result list has
no duplicates — each work-list entry's contribution is bounded by the
(duplicate-free) collection of the seed's subtree, counted with
multiplicity, and sorting permutes. -/
theorem C10_fuzzy_nodup {T : Type} (ops : List (Op T)) (p : String) :
    ((buildTrie T ops).FuzzySearch p).Nodup := by
  have hw := buildTrie_wf ops
  unfold wfTrie at hw
  simp only [Bool.and_eq_true] at hw
  have hnodup : (collectN (buildTrie T ops).root).Nodup :=
    collect_nodupN (buildTrie T ops).root [] hw.1.2 hw.1.1.1.2
  have hfc : (fuzzycollect (buildTrie T ops).root p.toList).Nodup := by
    unfold fuzzycollect
    by_cases he : p.toList.isEmpty = true
    · rw [if_pos he]
      exact hnodup
    · rw [if_neg he]
      rw [List.nodup_iff_count_le_one]
      intro a
      exact le_trans (fuzzy_countN p.toList (buildTrie T ops).root 0 a)
        (List.nodup_iff_count_le_one.mp hnodup a)
  unfold Trie.FuzzySearch
  exact ((List.perm_insertionSort byKeysLe _).nodup_iff).mpr hfc

end DTrie
